import Mathlib

/-!
Verification of the timestamp-indexed snapshot cache and its layout migrator
(cluster-art repository: app.py, cluster_art/fetch_cache.py,
cluster_art/migrate_cache.py).

The Python source is shallowly embedded:
* paths relative to the cache root are lists of name components
  (`Path := List String`);
* the on-disk tree is a pair of lists of file paths and directory paths;
* filesystem mutation (shutil.move, mkdir, rmdir) is explicit state passing;
* Python ints are `Int`; `int(s)` parsing is modelled for an optional sign
  followed by decimal digits (whitespace/underscore forms are not modelled);
* JSON values are the inductive `JVal`; raising code returns `Except`/`Option`.
-/

set_option maxHeartbeats 1600000

namespace ClusterArt

/-! ### Characters, decimal numerals (str(int) and int(str)) -/

def isDigitChar (c : Char) : Bool := 48 ≤ c.toNat && c.toNat ≤ 57

def digitVal (c : Char) : Nat := c.toNat - 48

def natToRevCharsFuel : Nat → Nat → List Char
  | 0, _ => []
  | fuel + 1, n =>
    if n = 0 then [] else Char.ofNat (48 + n % 10) :: natToRevCharsFuel fuel (n / 10)

/-- Least-significant-first decimal digits of n (n itself bounds the
number of digits, making the recursion structural). -/
def natToRevChars (n : Nat) : List Char := natToRevCharsFuel n n

/-- Python str(n) for a natural number. -/
def natToString (n : Nat) : String := if n = 0 then "0" else ⟨(natToRevChars n).reverse⟩

/-- Python str(i) for an int (leading minus sign for negatives). -/
def intToString (i : Int) : String :=
  if i < 0 then ⟨'-' :: (natToRevChars i.natAbs).reverse⟩ else natToString i.toNat

def digitFoldStep (acc : Option Nat) (c : Char) : Option Nat :=
  match acc with
  | none => none
  | some n => if isDigitChar c then some (n * 10 + digitVal c) else none

/-- Value of a nonempty all-digit character list; none otherwise. -/
def parseDigits (l : List Char) : Option Nat :=
  if l.isEmpty then none else l.foldl digitFoldStep (some 0)

/-- Python int(s) on a trimmed string: optional sign then decimal digits. -/
def parseIntChars (l : List Char) : Option Int :=
  match l with
  | [] => none
  | c :: rest =>
    if c = '-' then (parseDigits rest).map (fun n => -(n : Int))
    else if c = '+' then (parseDigits rest).map (fun n => (n : Int))
    else (parseDigits l).map (fun n => (n : Int))

/-! ### Sorting (model of Python sorted) -/

def insertBy (le : α → α → Bool) (a : α) : List α → List α
  | [] => [a]
  | b :: l => if le a b then a :: b :: l else b :: insertBy le a l

def sortBy (le : α → α → Bool) : List α → List α
  | [] => []
  | a :: l => insertBy le a (sortBy le l)

def charsLe : List Char → List Char → Bool
  | [], _ => true
  | _ :: _, [] => false
  | a :: as, b :: bs => if a = b then charsLe as bs else decide (a < b)

def strLe (a b : String) : Bool := charsLe a.data b.data

/-! ### Path components and pathlib name operations -/

/-- A path relative to the cache root, as a list of name components. -/
abbrev Path := List String

def pathCompLe : Path → Path → Bool
  | [], _ => true
  | _ :: _, [] => false
  | a :: as, b :: bs => if a = b then pathCompLe as bs else strLe a b

def basename (p : Path) : String := p.getLastD ""

/-- endswith on names. -/
def nameEndsWith (n suf : String) : Bool := suf.data.isSuffixOf n.data

/-- name.rfind of the dot character: index of the last dot, if any. -/
def rfindDot (l : List Char) : Option Nat :=
  match l.reverse.findIdx? (· == '.') with
  | none => none
  | some j => some (l.length - 1 - j)

/-- pathlib PurePath.stem: the name with its last suffix removed
(a suffix needs a dot that is neither leading nor trailing). -/
def pstem (n : String) : String :=
  match rfindDot n.data with
  | some i => if 0 < i && i < n.data.length - 1 then ⟨n.data.take i⟩ else n
  | none => n

/-- pathlib PurePath.suffix: the last extension including its dot, or "". -/
def psuffix (n : String) : String :=
  match rfindDot n.data with
  | some i => if 0 < i && i < n.data.length - 1 then ⟨n.data.drop i⟩ else ""
  | none => ""

/-- Shared body of both get_timestamp_from_path variants: the stem of the
name, with a further trailing ".json" stripped (the .json.gz case). -/
def strippedStem (n : String) : String :=
  if nameEndsWith (pstem n) ".json" then
    ⟨(pstem n).data.take ((pstem n).data.length - 5)⟩
  else pstem n

/-- migrate_cache.get_timestamp_from_path: int(stem) or None on failure. -/
def migrate_getTimestampFromPath (p : Path) : Option Int :=
  parseIntChars (strippedStem (basename p)).data

/-- app.get_timestamp_from_path: int(stem) or 0 on failure. -/
def app_getTimestampFromPath (p : Path) : Int :=
  match parseIntChars (strippedStem (basename p)).data with
  | some n => n
  | none => 0

/-! ### UTC calendar bucketing (datetime.fromtimestamp(ts, timezone.utc)) -/

/-- Days-since-epoch to (year, month, day) in the proleptic Gregorian
calendar, the civil-from-days algorithm used by C gmtime analogues. -/
def civilFromDays (z0 : Int) : Int × Nat × Nat :=
  let z := z0 + 719468
  let era := z.fdiv 146097
  let doe := (z - era * 146097).toNat
  let yoe := (doe - doe / 1460 + doe / 36524 - doe / 146096) / 365
  let y := (yoe : Int) + era * 400
  let doy := doe - (365 * yoe + yoe / 4 - yoe / 100)
  let mp := (5 * doy + 2) / 153
  let d := doy - (153 * mp + 2) / 5 + 1
  let m := if mp < 10 then mp + 3 else mp - 9
  (if m ≤ 2 then y + 1 else y, m, d)

/-- Inverse of civilFromDays: (year, month, day) to days since the epoch. -/
def daysFromCivil (y0 : Int) (m d : Nat) : Int :=
  let y := if m ≤ 2 then y0 - 1 else y0
  let era := y.fdiv 400
  let yoe := (y - era * 400).toNat
  let mp := if 2 < m then m - 3 else m + 9
  let doy := (153 * mp + 2) / 5 + d - 1
  let doe := yoe * 365 + yoe / 4 - yoe / 100 + doy
  era * 146097 + (doe : Int) - 719468

def pad2 (n : Nat) : String := if n < 10 then "0" ++ natToString n else natToString n

def yearString (y : Int) : String := intToString y

def utcYearMonthDay (ts : Int) : Int × Nat × Nat := civilFromDays (ts.fdiv 86400)

/-- migrate_cache.get_cache_path_for_timestamp: cache-relative
YYYYMM/DD/(timestamp)(extension), bucketed by the UTC date. -/
def migrate_getCachePathForTimestamp (ts : Int) (ext : String) : Path :=
  let ymd := utcYearMonthDay ts
  [yearString ymd.1 ++ pad2 ymd.2.1, pad2 ymd.2.2, intToString ts ++ ext]

/-- fetch_cache.get_cache_path_for_timestamp: always the .json.gz form. -/
def fetch_getCachePathForTimestamp (ts : Int) : Path :=
  let ymd := utcYearMonthDay ts
  [yearString ymd.1 ++ pad2 ymd.2.1, pad2 ymd.2.2, intToString ts ++ ".json.gz"]

/-! ### The on-disk tree -/

/-- The cache directory tree: the set of file paths and of (non-root)
directory paths, both relative to the cache root. -/
structure FS where
  files : List Path
  dirs : List Path
deriving DecidableEq, Repr

/-- Path.exists(): true for a file or a directory at that path. -/
def pexists (fs : FS) (p : Path) : Bool := fs.files.contains p || fs.dirs.contains p

/-- Renaming src to dst relocates every entry below src (shutil.move). -/
def rebase (src dst p : Path) : Path :=
  if src.isPrefixOf p then dst ++ p.drop src.length else p

/-- The nonempty proper prefixes of a path: the parent chain that
mkdir(parents=True) of its parent creates. -/
def properPrefixes (p : Path) : List Path :=
  (List.range (p.length - 1)).map (fun i => p.take (i + 1))

def addDirsIfMissing (ds new : List Path) : List Path :=
  new.foldl (fun acc d => if acc.contains d then acc else acc ++ [d]) ds

/-- target.parent.mkdir(parents=True, exist_ok=True) followed by
shutil.move(src, target). -/
def doMove (fs : FS) (src dst : Path) : FS :=
  let ds := addDirsIfMissing fs.dirs (properPrefixes dst)
  ⟨(fs.files.map (rebase src dst)), (ds.map (rebase src dst))⟩

/-! ### Migrator (migrate_cache.py) -/

/-- Per-phase result: the tree, counts of files acted on and skipped, and
the (source, destination) pairs of relocations decided (the moves a real
run performs and a dry run reports). -/
structure PhaseState where
  fs : FS
  acted : Nat
  skipped : Nat
  log : List (Path × Path)
deriving DecidableEq, Repr

/-- Line 74 / 124: ".json.gz" if filepath.suffix == '.gz' else ".json". -/
def extFor (p : Path) : String :=
  if psuffix (basename p) = ".gz" then ".json.gz" else ".json"

/-- The flat files directly under the root matching *.json.gz then *.json
(files only: the code filters with is_file), in sorted order. -/
def flatCandidates (fs : FS) : List Path :=
  sortBy pathCompLe
    ((fs.files.filter (fun p => p.length == 1 && nameEndsWith (basename p) ".json.gz")) ++
     (fs.files.filter (fun p => p.length == 1 && nameEndsWith (basename p) ".json")))

def flatStep (dryRun : Bool) (st : PhaseState) (p : Path) : PhaseState :=
  match migrate_getTimestampFromPath p with
  | none => { st with skipped := st.skipped + 1 }
  | some ts =>
    if pexists st.fs (migrate_getCachePathForTimestamp ts (extFor p)) then
      { st with skipped := st.skipped + 1 }
    else
      { st with
        fs := if dryRun then st.fs
              else doMove st.fs p (migrate_getCachePathForTimestamp ts (extFor p))
        acted := st.acted + 1
        log := st.log ++ [(p, migrate_getCachePathForTimestamp ts (extFor p))] }

/-- migrate_cache.migrate_flat_files. -/
def migrate_migrateFlatFiles (fs : FS) (dryRun : Bool) : PhaseState :=
  (flatCandidates fs).foldl (flatStep dryRun) ⟨fs, 0, 0, []⟩

/-- Entries two levels below the root matching the glob patterns
star/star/star.json.gz then star/star/star.json, in sorted order.
The source does not filter with is_file here, so directories whose names
match are scanned too. -/
def hierCandidates (fs : FS) : List Path :=
  sortBy pathCompLe
    (((fs.files ++ fs.dirs).filter
        (fun p => p.length == 3 && nameEndsWith (basename p) ".json.gz")) ++
     ((fs.files ++ fs.dirs).filter
        (fun p => p.length == 3 && nameEndsWith (basename p) ".json")))

def fixStep (dryRun : Bool) (st : PhaseState) (p : Path) : PhaseState :=
  match migrate_getTimestampFromPath p with
  | none => { st with skipped := st.skipped + 1 }
  | some ts =>
    if p = migrate_getCachePathForTimestamp ts (extFor p) then st
    else if pexists st.fs (migrate_getCachePathForTimestamp ts (extFor p)) then
      { st with skipped := st.skipped + 1 }
    else
      { st with
        fs := if dryRun then st.fs
              else doMove st.fs p (migrate_getCachePathForTimestamp ts (extFor p))
        acted := st.acted + 1
        log := st.log ++ [(p, migrate_getCachePathForTimestamp ts (extFor p))] }

/-- migrate_cache.fix_misplaced_files. -/
def migrate_fixMisplacedFiles (fs : FS) (dryRun : Bool) : PhaseState :=
  (hierCandidates fs).foldl (fixStep dryRun) ⟨fs, 0, 0, []⟩

/-- iterdir(d) is empty: no file or directory has d as its parent. -/
def isEmptyDir (fs : FS) (d : Path) : Bool :=
  !(fs.files.any (fun p => !p.isEmpty && p.dropLast == d)) &&
  !(fs.dirs.any (fun q => !q.isEmpty && q.dropLast == d))

/-- All directories, deepest first (sorted by part count, reversed). -/
def dirCandidates (fs : FS) : List Path :=
  sortBy (fun p q => decide (q.length ≤ p.length)) fs.dirs

structure CleanState where
  fs : FS
  removed : Nat
deriving DecidableEq, Repr

def cleanStep (dryRun : Bool) (st : CleanState) (d : Path) : CleanState :=
  if st.fs.dirs.contains d && isEmptyDir st.fs d then
    { fs := if dryRun then st.fs else ⟨st.fs.files, st.fs.dirs.filter (fun e => !(e == d))⟩
      removed := st.removed + 1 }
  else st

/-- migrate_cache.cleanup_empty_dirs. -/
def migrate_cleanupEmptyDirs (fs : FS) (dryRun : Bool) : CleanState :=
  (dirCandidates fs).foldl (cleanStep dryRun) ⟨fs, 0⟩

structure MigrateResult where
  fs : FS
  flatMoved : Nat
  flatSkipped : Nat
  fixed : Nat
  fixSkipped : Nat
  dirsRemoved : Nat
  flatLog : List (Path × Path)
  fixLog : List (Path × Path)
deriving DecidableEq, Repr

/-- migrate_cache.migrate_cache: the three phases in order. -/
def migrate_migrateCache (fs : FS) (dryRun : Bool) : MigrateResult :=
  let s1 := migrate_migrateFlatFiles fs dryRun
  let s2 := migrate_fixMisplacedFiles s1.fs dryRun
  let s3 := migrate_cleanupEmptyDirs s2.fs dryRun
  ⟨s3.fs, s1.acted, s1.skipped, s2.acted, s2.skipped, s3.removed, s1.log, s2.log⟩

/-! ### Store queries (app.py) -/

/-- glob("**/*.json.gz") then glob("**/*.json") over the whole tree
(pathlib glob patterns match directories as well as files). -/
def app_scanCacheFiles (fs : FS) : List Path :=
  ((fs.files ++ fs.dirs).filter (fun p => nameEndsWith (basename p) ".json.gz")) ++
  ((fs.files ++ fs.dirs).filter (fun p => nameEndsWith (basename p) ".json"))

/-- app.get_all_cache_timestamps: timestamps of scanned entries, kept only
when positive, sorted ascending. -/
def app_getAllCacheTimestamps (fs : FS) : List Int :=
  sortBy (fun a b => decide (a ≤ b))
    (((app_scanCacheFiles fs).map app_getTimestampFromPath).filter (fun t => decide (0 < t)))

/-- Python min(timestamps, key=lambda t: abs(t - T)): the first element
attaining the minimal key. -/
def pyMinAbs (hd : Int) (tl : List Int) (T : Int) : Int :=
  tl.foldl (fun acc t => if |t - T| < |acc - T| then t else acc) hd

/-- The timestamp app.get_cache_file_by_timestamp resolves a request to:
the exact timestamp when present, otherwise the closest one. -/
def resolveClosest (l : List Int) (T : Int) : Int :=
  match l with
  | [] => 0
  | hd :: tl => if l.contains T then T else pyMinAbs hd tl T

/-- app.get_cache_file_by_timestamp: none on an empty enumeration, else
resolve and probe the hierarchical gzipped path, the flat gzipped path and
the flat plain path in order. -/
def app_getCacheFileByTimestamp (fs : FS) (T : Int) : Option Path :=
  if app_getAllCacheTimestamps fs = [] then none
  else if pexists fs (fetch_getCachePathForTimestamp
      (resolveClosest (app_getAllCacheTimestamps fs) T)) then
    some (fetch_getCachePathForTimestamp (resolveClosest (app_getAllCacheTimestamps fs) T))
  else if pexists fs [intToString (resolveClosest (app_getAllCacheTimestamps fs) T)
      ++ ".json.gz"] then
    some [intToString (resolveClosest (app_getAllCacheTimestamps fs) T) ++ ".json.gz"]
  else if pexists fs [intToString (resolveClosest (app_getAllCacheTimestamps fs) T)
      ++ ".json"] then
    some [intToString (resolveClosest (app_getAllCacheTimestamps fs) T) ++ ".json"]
  else none

/-! ### JSON values and the transformer (fetch_cache.transform_to_optimized) -/

/-- A Python/JSON value as handled by the fetch pipeline. -/
inductive JVal where
  | null : JVal
  | bool : Bool → JVal
  | num : Int → JVal
  | str : String → JVal
  | arr : List JVal → JVal
  | obj : List (String × JVal) → JVal

/-- Equality test used for dict-key lookups (Python ==; the Python quirk
that True == 1 is not modelled). -/
def JVal.beq : JVal → JVal → Bool
  | .null, .null => true
  | .bool a, .bool b => a == b
  | .num a, .num b => a == b
  | .str a, .str b => a == b
  | .arr [], .arr [] => true
  | .arr (x :: xs), .arr (y :: ys) => x.beq y && (JVal.arr xs).beq (.arr ys)
  | .obj [], .obj [] => true
  | .obj ((k, v) :: fsx), .obj ((k2, v2) :: fsy) =>
      k == k2 && v.beq v2 && (JVal.obj fsx).beq (.obj fsy)
  | _, _ => false
termination_by a b => sizeOf a + sizeOf b
decreasing_by all_goals simp_all; omega

/-- Python truthiness of a JSON value. -/
def JVal.truthy : JVal → Bool
  | .null => false
  | .bool b => b
  | .num n => n != 0
  | .str s => !s.data.isEmpty
  | .arr xs => !xs.isEmpty
  | .obj fields => !fields.isEmpty

/-- dict lookup d.get(k): Python dicts have unique keys, modelled as the
first matching entry of the field list. -/
def jget (fields : List (String × JVal)) (k : String) : Option JVal :=
  (fields.find? (fun kv => kv.1 == k)).map (fun kv => kv.2)

/-- Building the dict literal with an extra key: an existing key keeps its
position with the value replaced, a new key is appended at the end. -/
def jupsert (fields : List (String × JVal)) (k : String) (v : JVal) :
    List (String × JVal) :=
  if fields.any (fun kv => kv.1 == k) then
    fields.map (fun kv => if kv.1 == k then (k, v) else kv)
  else fields ++ [(k, v)]

/-- Python hashability of a JSON value: scalars and strings are hashable,
lists and dicts are not (using one as a dict key raises TypeError). -/
def JVal.hashable : JVal → Bool
  | .arr _ => false
  | .obj _ => false
  | _ => true

/-- Iterating a Python value (for x in v, enumerate(v)): a list yields its
elements, a string its characters (as one-character strings), a dict its
keys; any other value raises TypeError. -/
def pyIter : JVal → Except String (List JVal)
  | .arr xs => .ok xs
  | .str s => .ok (s.data.map (fun c => JVal.str (String.mk [c])))
  | .obj kvs => .ok (kvs.map (fun kv => JVal.str kv.1))
  | _ => .error "TypeError: object is not iterable"

/-- Assoc-list form of the hostname_to_group dict: assignment overwrites an
equal key; an unhashable key (list or dict) raises TypeError. -/
def h2gInsert (m : List (JVal × String)) (h : JVal) (g : String) :
    Except String (List (JVal × String)) :=
  if h.hashable then
    .ok (if m.any (fun kv => kv.1.beq h) then
          m.map (fun kv => if kv.1.beq h then (h, g) else kv)
        else m ++ [(h, g)])
  else .error "TypeError: unhashable type"

/-- hostname_to_group.get(h, "Unknown"): the stored group for an equal key,
the default on a missing key, TypeError on an unhashable one. -/
def h2gLookup (m : List (JVal × String)) (h : JVal) : Except String String :=
  if h.hashable then
    .ok (((m.find? (fun kv => kv.1.beq h)).map (fun kv => kv.2)).getD "Unknown")
  else .error "TypeError: unhashable type"

/-- Lines 76-85: sparse slot map, index rendered as its decimal string,
keeping only truthy occupants. -/
def sparseSlots (slots : List JVal) : List (String × JVal) :=
  ((List.range slots.length).zip slots).filterMap
    (fun iu => if iu.2.truthy then some (natToString iu.1, iu.2) else none)

/-- Lines 75-93: the per-host transform. host.get of a slot field defaults
to the empty list; the value is then iterated, so a string or dict slot
field is iterated (characters, keys) rather than rejected, while a number,
boolean or null raises TypeError; a missing hostname key raises KeyError
and an unhashable hostname raises TypeError inside the group lookup. -/
def optimizeHost (h2g : List (JVal × String)) (host : List (String × JVal)) :
    Except String JVal :=
  match pyIter ((jget host "cpuSlots").getD (.arr [])) with
  | .error e => .error e
  | .ok cpuIn =>
    match pyIter ((jget host "gpuSlots").getD (.arr [])) with
    | .error e => .error e
    | .ok gpuIn =>
      match jget host "hostname" with
      | none => .error "KeyError: hostname"
      | some hn =>
        match h2gLookup h2g hn with
        | .error e => .error e
        | .ok grp =>
          .ok (.obj (jupsert (jupsert (jupsert host
                "cpuSlots" (.obj (sparseSlots cpuIn)))
                "gpuSlots" (.obj (sparseSlots gpuIn)))
                "hardwareGroup" (.str grp)))

/-- fetch_cache.transform_to_optimized on a top-level dict. Absent optional
fields get empty-container defaults; calling .items() or .get on a value
that is not a dict raises AttributeError; iterating a number, boolean or
null raises TypeError, while a string or dict value is iterated
(characters, keys) as in Python; a non-dict host raises AttributeError at
host.get. -/
def transform_to_optimized (data : List (String × JVal)) : Except String JVal :=
  match (match jget data "hardwareGroups" with
         | none => Except.ok []
         | some (.obj fields) => Except.ok fields
         | some _ => Except.error "AttributeError: no attribute items") with
  | .error e => .error e
  | .ok hg =>
    match hg.foldlM (fun acc gv =>
        match pyIter gv.2 with
        | Except.error e => Except.error e
        | Except.ok hs => hs.foldlM (fun m h => h2gInsert m h gv.1) acc)
        ([] : List (JVal × String)) with
    | .error e => .error e
    | .ok h2g =>
      match (match jget data "hostDetails" with
             | none => (Except.ok [] : Except String (List JVal))
             | some v => pyIter v) with
      | .error e => .error e
      | .ok hosts =>
        match hosts.mapM (fun h =>
            match h with
            | .obj hostFields => optimizeHost h2g hostFields
            | _ => Except.error "AttributeError: no attribute get") with
        | .error e => .error e
        | .ok optimized =>
          match (match jget data "raw" with
                 | none => Except.ok []
                 | some (.obj fields) => Except.ok fields
                 | some _ => Except.error "AttributeError: no attribute get") with
          | .error e => .error e
          | .ok rawFields =>
            match (match jget rawFields "jobs" with
                   | none => Except.ok []
                   | some (.obj fields) => Except.ok fields
                   | some _ => Except.error "AttributeError: no attribute get") with
            | .error e => .error e
            | .ok jobsFields =>
              .ok (.obj [
                ("hostDetails", .arr optimized),
                ("activeUsers", (jget data "activeUsers").getD .null),
                ("userJobStats", (jget data "userJobStats").getD .null),
                ("motd", (jget data "motd").getD .null),
                ("fetchedAt", (jget data "fetchedAt").getD .null),
                ("raw", .obj [
                  ("jobs", .obj [("all", (jget jobsFields "all").getD (.arr []))]),
                  ("gpu_attribution", (jget rawFields "gpu_attribution").getD (.arr []))])])

/-! ### Store.write (fetch_cache.save_to_cache) -/

/-- str.replace("Z", "+00:00"): every occurrence replaced. -/
def replaceZChars : List Char → List Char
  | [] => []
  | 'Z' :: rest => '+' :: '0' :: '0' :: ':' :: '0' :: '0' :: replaceZChars rest
  | c :: rest => c :: replaceZChars rest

def replaceZ (s : String) : String := ⟨replaceZChars s.data⟩

def parse2 (a b : Char) : Option Nat :=
  if isDigitChar a && isDigitChar b then some (digitVal a * 10 + digitVal b) else none

def parse4 (a b c d : Char) : Option Int :=
  if isDigitChar a && isDigitChar b && isDigitChar c && isDigitChar d then
    some ((digitVal a * 1000 + digitVal b * 100 + digitVal c * 10 + digitVal d : Nat) : Int)
  else none

/-- Seconds since the epoch of Y-M-D H:M:S minus a UTC offset. -/
def epochSeconds (y : Int) (mo d h mi s : Nat) (offs : Int) : Int :=
  daysFromCivil y mo d * 86400 + (h * 3600 + mi * 60 + s : Nat) - offs

/-- The time-of-day and offset part of an ISO string: "", "HH:MM",
"HH:MM:SS", each optionally followed by +HH:MM or -HH:MM. -/
def parseIsoTime : List Char → Option (Nat × Nat × Nat × Int)
  | [] => some (0, 0, 0, 0)
  | [h1, h2, ':', m1, m2] =>
      match parse2 h1 h2, parse2 m1 m2 with
      | some h, some mi => if h < 24 && mi < 60 then some (h, mi, 0, 0) else none
      | _, _ => none
  | h1 :: h2 :: ':' :: m1 :: m2 :: rest =>
      match parse2 h1 h2, parse2 m1 m2 with
      | some h, some mi =>
        if h < 24 && mi < 60 then
          match rest with
          | [':', s1, s2] =>
              match parse2 s1 s2 with
              | some s => if s < 60 then some (h, mi, s, 0) else none
              | none => none
          | ':' :: s1 :: s2 :: sgn :: o1 :: o2 :: ':' :: o3 :: o4 :: [] =>
              match parse2 s1 s2, parse2 o1 o2, parse2 o3 o4 with
              | some s, some oh, some om =>
                if s < 60 && oh < 24 && om < 60 then
                  let off : Int := (oh * 3600 + om * 60 : Nat)
                  if sgn = '+' then some (h, mi, s, off)
                  else if sgn = '-' then some (h, mi, s, -off)
                  else none
                else none
              | _, _, _ => none
          | sgn :: o1 :: o2 :: ':' :: o3 :: o4 :: [] =>
              match parse2 o1 o2, parse2 o3 o4 with
              | some oh, some om =>
                if oh < 24 && om < 60 then
                  let off : Int := (oh * 3600 + om * 60 : Nat)
                  if sgn = '+' then some (h, mi, 0, off)
                  else if sgn = '-' then some (h, mi, 0, -off)
                  else none
                else none
              | _, _ => none
          | _ => none
        else none
      | _, _ => none
  | _ => none

/-- datetime.fromisoformat then int(dt.timestamp()), for the common
"YYYY-MM-DD[THH:MM[:SS]][+HH:MM]" shapes (fractional seconds and other
exotic accepted forms are outside the model; a naive result is taken as
UTC, matching the upstream contract where fetchedAt carries a Z offset). -/
def parseIsoTimestamp (s : String) : Option Int :=
  match s.data with
  | y1 :: y2 :: y3 :: y4 :: '-' :: m1 :: m2 :: '-' :: d1 :: d2 :: rest =>
      match parse4 y1 y2 y3 y4, parse2 m1 m2, parse2 d1 d2 with
      | some y, some mo, some d =>
        if 1 ≤ mo && mo ≤ 12 && 1 ≤ d && d ≤ 31 then
          match rest with
          | [] => some (epochSeconds y mo d 0 0 0 0)
          | 'T' :: t =>
              (parseIsoTime t).map (fun r => epochSeconds y mo d r.1 r.2.1 r.2.2.1 r.2.2.2)
          | ' ' :: t =>
              (parseIsoTime t).map (fun r => epochSeconds y mo d r.1 r.2.1 r.2.2.1 r.2.2.2)
          | _ => none
        else none
      | _, _, _ => none
  | _ => none

/-- Lines 118-125 of fetch_cache.py: the entry timestamp, from fetchedAt
when it parses, else the current wall clock. -/
def resolveWriteTimestamp (data : List (String × JVal)) (now : Int) : Int :=
  match (jget data "fetchedAt").getD (.str "") with
  | .str s =>
      match parseIsoTimestamp (replaceZ s) with
      | some t => t
      | none => now
  | _ => now

/-- A filesystem side effect of the write path. -/
inductive FsOp where
  | mkdirP : Path → FsOp
  | write : Path → FsOp
  | rename : Path → Path → FsOp
deriving DecidableEq, Repr

/-- fetch_cache.save_to_cache as its sequence of filesystem operations and
the returned path: ensure the root, resolve the timestamp, transform (a
raised exception propagates with no file written), make the parents of the
hierarchical path and write the payload there directly. -/
def save_to_cache (data : List (String × JVal)) (now : Int) :
    List FsOp × Option Path :=
  let ops := [FsOp.mkdirP []]
  let ts := resolveWriteTimestamp data now
  match transform_to_optimized data with
  | .error _ => (ops, none)
  | .ok _ =>
    let filepath := fetch_getCachePathForTimestamp ts
    (ops ++ [FsOp.mkdirP filepath.dropLast, FsOp.write filepath], some filepath)

/-- The claimed write discipline: the payload goes to a temporary path
distinct from the final one and is renamed into place afterwards. -/
def atomicTempRename (trace : List FsOp) (final : Path) : Prop :=
  ∃ tmp, tmp ≠ final ∧ FsOp.write tmp ∈ trace ∧ FsOp.rename tmp final ∈ trace

/-! ### Decimal numeral lemmas: int(str(n)) round-trips -/

theorem charOfNat_digit_toNat (d : Nat) (hd : d < 10) :
    (Char.ofNat (48 + d)).toNat = 48 + d := by
  interval_cases d <;> decide

theorem natToRevChars_zero : natToRevChars 0 = [] := rfl

theorem natToRevCharsFuel_congr :
    ∀ f1 f2 n : Nat, n ≤ f1 → n ≤ f2 → natToRevCharsFuel f1 n = natToRevCharsFuel f2 n := by
  intro f1
  induction f1 with
  | zero =>
    intro f2 n h1 _
    have hn : n = 0 := Nat.le_zero.mp h1
    subst hn
    cases f2 with
    | zero => rfl
    | succ g => simp [natToRevCharsFuel]
  | succ f ih =>
    intro f2 n h1 h2
    by_cases hn : n = 0
    · subst hn
      cases f2 with
      | zero => simp [natToRevCharsFuel]
      | succ g => simp [natToRevCharsFuel]
    · cases f2 with
      | zero => omega
      | succ g =>
        simp only [natToRevCharsFuel]
        rw [if_neg hn, if_neg hn]
        have hd : n / 10 < n := Nat.div_lt_self (Nat.pos_of_ne_zero hn) (by decide)
        rw [ih g (n / 10) (by omega) (by omega)]

theorem natToRevChars_cons (n : Nat) (hn : n ≠ 0) :
    natToRevChars n = Char.ofNat (48 + n % 10) :: natToRevChars (n / 10) := by
  unfold natToRevChars
  cases n with
  | zero => exact absurd rfl hn
  | succ m =>
    show natToRevCharsFuel (m + 1) (m + 1) = _
    simp only [natToRevCharsFuel]
    rw [if_neg hn]
    congr 1
    have hd : (m + 1) / 10 < m + 1 := Nat.div_lt_self (Nat.succ_pos m) (by decide)
    exact natToRevCharsFuel_congr m ((m + 1) / 10) ((m + 1) / 10) (by omega) (le_refl _)

theorem natToRevChars_ne_nil (n : Nat) (hn : n ≠ 0) : natToRevChars n ≠ [] := by
  rw [natToRevChars_cons n hn]; exact List.cons_ne_nil _ _

theorem mem_natToRevChars_isDigit (n : Nat) :
    ∀ c ∈ natToRevChars n, isDigitChar c = true := by
  induction n using Nat.strong_induction_on with
  | _ n ih =>
    by_cases hn : n = 0
    · subst hn; rw [natToRevChars_zero]; intro c hc; cases hc
    · rw [natToRevChars_cons n hn]
      intro c hc
      rcases List.mem_cons.mp hc with h | h
      · subst h
        have h10 : n % 10 < 10 := Nat.mod_lt _ (by decide)
        simp only [isDigitChar, charOfNat_digit_toNat _ h10, Bool.and_eq_true,
          decide_eq_true_eq]
        omega
      · exact ih (n / 10) (Nat.div_lt_self (Nat.pos_of_ne_zero hn) (by decide)) c h

theorem foldl_digitFoldStep_value (n : Nat) :
    ∀ acc : Nat, ((natToRevChars n).reverse).foldl digitFoldStep (some acc) =
      some (acc * 10 ^ (natToRevChars n).length + n) := by
  induction n using Nat.strong_induction_on with
  | _ n ih =>
    intro acc
    by_cases hn : n = 0
    · subst hn; rw [natToRevChars_zero]; simp
    · rw [natToRevChars_cons n hn]
      rw [List.reverse_cons, List.foldl_append]
      rw [ih (n / 10) (Nat.div_lt_self (Nat.pos_of_ne_zero hn) (by decide)) acc]
      have h10 : n % 10 < 10 := Nat.mod_lt _ (by decide)
      have hdig : isDigitChar (Char.ofNat (48 + n % 10)) = true := by
        simp only [isDigitChar, charOfNat_digit_toNat _ h10, Bool.and_eq_true,
          decide_eq_true_eq]
        omega
      have hval : digitVal (Char.ofNat (48 + n % 10)) = n % 10 := by
        simp only [digitVal, charOfNat_digit_toNat _ h10]; omega
      have hstep : digitFoldStep
          (some (acc * 10 ^ (natToRevChars (n / 10)).length + n / 10))
          (Char.ofNat (48 + n % 10)) =
          some ((acc * 10 ^ (natToRevChars (n / 10)).length + n / 10) * 10 + n % 10) := by
        simp [digitFoldStep, hdig, hval]
      rw [List.foldl_cons, List.foldl_nil, hstep]
      have hlen : (Char.ofNat (48 + n % 10) :: natToRevChars (n / 10)).length =
          (natToRevChars (n / 10)).length + 1 := by simp
      rw [hlen, pow_succ]
      congr 1
      rw [← Nat.mul_assoc]
      generalize acc * 10 ^ (natToRevChars (n / 10)).length = t
      omega

theorem parseDigits_natToRevChars_reverse (n : Nat) (hn : n ≠ 0) :
    parseDigits ((natToRevChars n).reverse) = some n := by
  unfold parseDigits
  have hne : (natToRevChars n).reverse ≠ [] := by
    simp only [ne_eq, List.reverse_eq_nil_iff]
    exact natToRevChars_ne_nil n hn
  rw [if_neg (by simpa [List.isEmpty_iff] using hne)]
  rw [foldl_digitFoldStep_value n 0]
  simp

theorem parseDigits_natToString (n : Nat) :
    parseDigits (natToString n).data = some n := by
  by_cases hn : n = 0
  · subst hn; decide
  · unfold natToString
    rw [if_neg hn]
    exact parseDigits_natToRevChars_reverse n hn

theorem isDigitChar_ne_minus {c : Char} (h : isDigitChar c = true) : c ≠ '-' := by
  intro he; subst he; exact absurd h (by decide)

theorem isDigitChar_ne_plus {c : Char} (h : isDigitChar c = true) : c ≠ '+' := by
  intro he; subst he; exact absurd h (by decide)

theorem isDigitChar_ne_dot {c : Char} (h : isDigitChar c = true) : c ≠ '.' := by
  intro he; subst he; exact absurd h (by decide)

theorem parseIntChars_cons (c : Char) (rest : List Char) :
    parseIntChars (c :: rest) =
      if c = '-' then (parseDigits rest).map (fun n => -(n : Int))
      else if c = '+' then (parseDigits rest).map (fun n => (n : Int))
      else (parseDigits (c :: rest)).map (fun n => (n : Int)) := rfl

/-- int(str(i)) == i. -/
theorem parseIntChars_intToString (i : Int) :
    parseIntChars (intToString i).data = some i := by
  by_cases hneg : i < 0
  · unfold intToString
    rw [if_pos hneg]
    show parseIntChars ('-' :: (natToRevChars i.natAbs).reverse) = some i
    rw [parseIntChars_cons, if_pos rfl]
    have habs : i.natAbs ≠ 0 := by omega
    rw [parseDigits_natToRevChars_reverse _ habs]
    show some (-(i.natAbs : Int)) = some i
    congr 1
    omega
  · unfold intToString
    rw [if_neg hneg]
    by_cases h0 : i.toNat = 0
    · have : i = 0 := by omega
      subst this; decide
    · unfold natToString
      rw [if_neg h0]
      show parseIntChars ((natToRevChars i.toNat).reverse) = some i
      rcases hrev : (natToRevChars i.toNat).reverse with _ | ⟨x, rest⟩
      · exact absurd (List.reverse_eq_nil_iff.mp hrev) (natToRevChars_ne_nil _ h0)
      · have hx : isDigitChar x = true := by
          apply mem_natToRevChars_isDigit i.toNat
          have hmem : x ∈ (natToRevChars i.toNat).reverse := by
            rw [hrev]; exact List.mem_cons_self _ _
          simpa using hmem
        rw [parseIntChars_cons,
          if_neg (isDigitChar_ne_minus hx), if_neg (isDigitChar_ne_plus hx),
          ← hrev, parseDigits_natToRevChars_reverse _ h0]
        show some ((i.toNat : Nat) : Int) = some i
        congr 1
        omega

theorem not_dot_mem_natToRevChars (n : Nat) : '.' ∉ natToRevChars n := by
  intro h
  exact absurd (mem_natToRevChars_isDigit n '.' h) (by decide)

theorem not_dot_mem_intToString (i : Int) : '.' ∉ (intToString i).data := by
  unfold intToString
  by_cases hneg : i < 0
  · rw [if_pos hneg]
    intro h
    rcases List.mem_cons.mp h with h | h
    · exact absurd h (by decide)
    · exact not_dot_mem_natToRevChars _ (List.mem_reverse.mp h)
  · rw [if_neg hneg]
    unfold natToString
    by_cases h0 : i.toNat = 0
    · rw [if_pos h0]; decide
    · rw [if_neg h0]
      intro h
      exact not_dot_mem_natToRevChars _ (List.mem_reverse.mp h)

theorem not_dot_mem_natToString (n : Nat) : '.' ∉ (natToString n).data := by
  unfold natToString
  by_cases h0 : n = 0
  · rw [if_pos h0]; decide
  · rw [if_neg h0]
    intro h
    exact not_dot_mem_natToRevChars _ (List.mem_reverse.mp h)

theorem not_dot_mem_pad2 (n : Nat) : '.' ∉ (pad2 n).data := by
  unfold pad2
  by_cases h : n < 10
  · rw [if_pos h, String.data_append]
    intro hm
    rcases List.mem_append.mp hm with hm | hm
    · exact absurd hm (by decide)
    · exact not_dot_mem_natToString n hm
  · rw [if_neg h]
    exact not_dot_mem_natToString n

theorem intToString_ne_nil (i : Int) : (intToString i).data ≠ [] := by
  unfold intToString
  by_cases hneg : i < 0
  · rw [if_pos hneg]; exact List.cons_ne_nil _ _
  · rw [if_neg hneg]
    unfold natToString
    by_cases h0 : i.toNat = 0
    · rw [if_pos h0]; decide
    · rw [if_neg h0]
      simp only [ne_eq, List.reverse_eq_nil_iff]
      exact natToRevChars_ne_nil _ h0

/-! ### Stem and suffix lemmas for canonical cache names -/

theorem sublist_mem_of_endsWith {n suf : String} (h : nameEndsWith n suf = true)
    {c : Char} (hc : c ∈ suf.data) : c ∈ n.data := by
  unfold nameEndsWith at h
  have hsuf := List.isSuffixOf_iff_suffix.mp h
  exact hsuf.sublist.mem hc

theorem nameEndsWith_false_of_no_dot {n suf : String} (hdot : '.' ∈ suf.data)
    (hn : '.' ∉ n.data) : nameEndsWith n suf = false := by
  rcases hb : nameEndsWith n suf
  · rfl
  · exact absurd (sublist_mem_of_endsWith hb hdot) hn

theorem nameEndsWith_append_self (s suf : String) :
    nameEndsWith (s ++ suf) suf = true := by
  unfold nameEndsWith
  rw [String.data_append]
  exact List.isSuffixOf_iff_suffix.mpr (List.suffix_append _ _)

theorem findIdx_dot_json_gz :
    (".json.gz".data).reverse.findIdx? (fun c => c == '.') = some 2 := by decide

theorem findIdx_dot_json :
    (".json".data).reverse.findIdx? (fun c => c == '.') = some 4 := by decide

theorem rfindDot_append (ds sfx : List Char) (j : Nat)
    (hfind : sfx.reverse.findIdx? (fun c => c == '.') = some j) :
    rfindDot (ds ++ sfx) = some (ds.length + sfx.length - 1 - j) := by
  unfold rfindDot
  rw [List.reverse_append, List.findIdx?_append, hfind]
  simp [List.length_append]

theorem pstem_eq_of_rfindDot {n : String} {i : Nat} (h : rfindDot n.data = some i) :
    pstem n = if (0 < i && i < n.data.length - 1) = true then
      (⟨n.data.take i⟩ : String) else n := by
  unfold pstem
  rw [h]

theorem psuffix_eq_of_rfindDot {n : String} {i : Nat} (h : rfindDot n.data = some i) :
    psuffix n = if (0 < i && i < n.data.length - 1) = true then
      (⟨n.data.drop i⟩ : String) else "" := by
  unfold psuffix
  rw [h]

theorem rfindDot_canonical_gz (s : String) :
    rfindDot ((s ++ ".json.gz") : String).data = some (s.data.length + 5) := by
  rw [String.data_append, rfindDot_append s.data ".json.gz".data 2 findIdx_dot_json_gz,
    show ".json.gz".data.length = 8 from rfl]
  simp only [Option.some.injEq]
  omega

theorem rfindDot_canonical_json (s : String) :
    rfindDot ((s ++ ".json") : String).data = some s.data.length := by
  rw [String.data_append, rfindDot_append s.data ".json".data 4 findIdx_dot_json,
    show ".json".data.length = 5 from rfl]
  simp only [Option.some.injEq]
  omega

theorem cond_canonical_gz (s : String) :
    (0 < s.data.length + 5 &&
      s.data.length + 5 < ((s ++ ".json.gz") : String).data.length - 1) = true := by
  rw [String.data_append]
  simp only [List.length_append, show ".json.gz".data.length = 8 from rfl,
    Bool.and_eq_true, decide_eq_true_eq]
  omega

theorem cond_canonical_json (s : String) (hne : s.data ≠ []) :
    (0 < s.data.length &&
      s.data.length < ((s ++ ".json") : String).data.length - 1) = true := by
  have hpos : 0 < s.data.length := List.length_pos.mpr hne
  rw [String.data_append]
  simp only [List.length_append, show ".json".data.length = 5 from rfl,
    Bool.and_eq_true, decide_eq_true_eq]
  omega

theorem pstem_append_json_gz (s : String) :
    pstem (s ++ ".json.gz") = s ++ ".json" := by
  rw [pstem_eq_of_rfindDot (rfindDot_canonical_gz s), if_pos (cond_canonical_gz s)]
  apply String.ext
  show ((s ++ ".json.gz") : String).data.take (s.data.length + 5) = (s ++ ".json").data
  rw [String.data_append, String.data_append, List.take_append_eq_append_take,
    List.take_of_length_le (by omega),
    show s.data.length + 5 - s.data.length = 5 by omega]
  rfl

theorem pstem_append_json (s : String) (hne : s.data ≠ []) :
    pstem (s ++ ".json") = s := by
  rw [pstem_eq_of_rfindDot (rfindDot_canonical_json s),
    if_pos (cond_canonical_json s hne)]
  apply String.ext
  show ((s ++ ".json") : String).data.take s.data.length = s.data
  rw [String.data_append, List.take_append_eq_append_take,
    List.take_of_length_le (by omega)]
  simp

theorem psuffix_append_json_gz (s : String) :
    psuffix (s ++ ".json.gz") = ".gz" := by
  rw [psuffix_eq_of_rfindDot (rfindDot_canonical_gz s), if_pos (cond_canonical_gz s)]
  apply String.ext
  show ((s ++ ".json.gz") : String).data.drop (s.data.length + 5) = ".gz".data
  rw [String.data_append, List.drop_append_eq_append_drop,
    List.drop_eq_nil_of_le (by omega),
    show s.data.length + 5 - s.data.length = 5 by omega]
  rfl

theorem psuffix_append_json (s : String) (hne : s.data ≠ []) :
    psuffix (s ++ ".json") = ".json" := by
  rw [psuffix_eq_of_rfindDot (rfindDot_canonical_json s),
    if_pos (cond_canonical_json s hne)]
  apply String.ext
  show ((s ++ ".json") : String).data.drop s.data.length = ".json".data
  rw [String.data_append, List.drop_append_eq_append_drop,
    List.drop_eq_nil_of_le (by omega)]
  simp

theorem strippedStem_canonical (s : String) (hdot : '.' ∉ s.data)
    (hne : s.data ≠ []) (ext : String)
    (hext : ext = ".json.gz" ∨ ext = ".json") : strippedStem (s ++ ext) = s := by
  rcases hext with h | h <;> subst h
  · unfold strippedStem
    rw [pstem_append_json_gz s]
    rw [if_pos (nameEndsWith_append_self s ".json")]
    apply String.ext
    show ((s ++ ".json").data).take ((s ++ ".json").data.length - 5) = s.data
    rw [String.data_append, List.length_append,
      show ".json".data.length = 5 from rfl,
      show s.data.length + 5 - 5 = s.data.length by omega,
      List.take_append_eq_append_take, List.take_of_length_le (by omega)]
    simp
  · unfold strippedStem
    rw [pstem_append_json s hne]
    have hfalse : nameEndsWith s ".json" = false :=
      nameEndsWith_false_of_no_dot (by decide) hdot
    rw [hfalse]
    simp

/-- Parsing the timestamp back out of a canonical cache file name. -/
theorem stemInt_canonicalName (ts : Int) (ext : String)
    (hext : ext = ".json.gz" ∨ ext = ".json") :
    parseIntChars (strippedStem (intToString ts ++ ext)).data = some ts := by
  rw [strippedStem_canonical _ (not_dot_mem_intToString ts) (intToString_ne_nil ts)
    ext hext]
  exact parseIntChars_intToString ts

theorem basename_migratePath (ts : Int) (ext : String) :
    basename (migrate_getCachePathForTimestamp ts ext) = intToString ts ++ ext := rfl

/-- The recomputed extension of a canonical cache path is its own. -/
theorem extFor_canonical (ts : Int) (ext : String)
    (hext : ext = ".json.gz" ∨ ext = ".json") :
    extFor (migrate_getCachePathForTimestamp ts ext) = ext := by
  unfold extFor
  rw [basename_migratePath]
  rcases hext with h | h <;> subst h
  · rw [psuffix_append_json_gz _, if_pos rfl]
  · rw [psuffix_append_json _ (intToString_ne_nil ts)]
    rw [if_neg (by decide)]

/-- A canonical cache path parses back to its own timestamp. -/
theorem getTimestamp_canonicalPath (ts : Int) (ext : String)
    (hext : ext = ".json.gz" ∨ ext = ".json") :
    migrate_getTimestampFromPath (migrate_getCachePathForTimestamp ts ext) = some ts := by
  unfold migrate_getTimestampFromPath
  rw [basename_migratePath]
  exact stemInt_canonicalName ts ext hext

/-! ### Sorting lemmas -/

theorem insertBy_perm (le : α → α → Bool) (a : α) (l : List α) :
    (insertBy le a l).Perm (a :: l) := by
  induction l with
  | nil => exact List.Perm.refl _
  | cons b t ih =>
    unfold insertBy
    by_cases h : le a b = true
    · rw [if_pos h]
    · rw [if_neg h]
      exact (List.Perm.cons b ih).trans (List.Perm.swap a b t)

theorem sortBy_perm (le : α → α → Bool) (l : List α) : (sortBy le l).Perm l := by
  induction l with
  | nil => exact List.Perm.refl _
  | cons a t ih =>
    unfold sortBy
    exact (insertBy_perm le a (sortBy le t)).trans (List.Perm.cons a ih)

theorem mem_sortBy {le : α → α → Bool} {l : List α} {x : α} :
    x ∈ sortBy le l ↔ x ∈ l := (sortBy_perm le l).mem_iff

theorem nodup_sortBy {le : α → α → Bool} {l : List α} (h : l.Nodup) :
    (sortBy le l).Nodup := ((sortBy_perm le l).nodup_iff).mpr h

theorem insertBy_pairwise {le : α → α → Bool}
    (htot : ∀ a b, le a b = false → le b a = true)
    (htrans : ∀ a b c, le a b = true → le b c = true → le a c = true)
    (a : α) (l : List α) (hl : l.Pairwise (fun x y => le x y = true)) :
    (insertBy le a l).Pairwise (fun x y => le x y = true) := by
  induction l with
  | nil => simp [insertBy]
  | cons b t ih =>
    rcases List.pairwise_cons.mp hl with ⟨hb, ht⟩
    unfold insertBy
    by_cases h : le a b = true
    · rw [if_pos h]
      refine List.pairwise_cons.mpr ⟨?_, hl⟩
      intro x hx
      rcases List.mem_cons.mp hx with hx | hx
      · subst hx; exact h
      · exact htrans a b x h (hb x hx)
    · rw [if_neg h]
      refine List.pairwise_cons.mpr ⟨?_, ih ht⟩
      intro x hx
      have hx' : x = a ∨ x ∈ t := by
        have := (insertBy_perm le a t).mem_iff.mp hx
        simpa using this
      rcases hx' with hx' | hx'
      · rw [hx']
        exact htot a b (by simpa using h)
      · exact hb x hx'

theorem sortBy_pairwise {le : α → α → Bool}
    (htot : ∀ a b, le a b = false → le b a = true)
    (htrans : ∀ a b c, le a b = true → le b c = true → le a c = true)
    (l : List α) : (sortBy le l).Pairwise (fun x y => le x y = true) := by
  induction l with
  | nil => simp [sortBy]
  | cons a t ih =>
    unfold sortBy
    exact insertBy_pairwise htot htrans a (sortBy le t) ih

theorem sortBy_int_sorted (l : List Int) :
    (sortBy (fun a b => decide (a ≤ b)) l).Sorted (· ≤ ·) := by
  have h := @sortBy_pairwise _ (fun a b : Int => decide (a ≤ b))
    (by intro a b hab; simp at hab ⊢; omega)
    (by intro a b c hab hbc; simp at hab hbc ⊢; omega) l
  exact h.imp (by intro a b hab; simpa using hab)

/-! ### Nearest-timestamp resolution (Python min with an abs key) -/

theorem pyMinAbs_spec (T : Int) :
    ∀ (tl : List Int) (hd : Int), (hd :: tl).Sorted (· ≤ ·) →
      pyMinAbs hd tl T ∈ hd :: tl ∧
      (∀ t ∈ hd :: tl, |pyMinAbs hd tl T - T| ≤ |t - T|) ∧
      (∀ t ∈ hd :: tl, |t - T| = |pyMinAbs hd tl T - T| → pyMinAbs hd tl T ≤ t) := by
  intro tl
  induction tl with
  | nil =>
    intro hd _
    refine ⟨List.mem_singleton.mpr rfl, ?_, ?_⟩
    · intro t ht
      rcases List.mem_singleton.mp ht with rfl
      exact le_refl _
    · intro t ht _
      rcases List.mem_singleton.mp ht with rfl
      exact le_refl _
  | cons t rest ih =>
    intro hd hsort
    have hstep : pyMinAbs hd (t :: rest) T =
        pyMinAbs (if |t - T| < |hd - T| then t else hd) rest T := rfl
    rcases List.pairwise_cons.mp hsort with ⟨hhd, htail⟩
    rcases List.pairwise_cons.mp htail with ⟨ht, hrest⟩
    have hhdt : hd ≤ t := hhd t (List.mem_cons_self _ _)
    by_cases hcmp : |t - T| < |hd - T|
    · have hsort' : (t :: rest).Sorted (· ≤ ·) := htail
      rcases ih t hsort' with ⟨hmem, hmin, htie⟩
      rw [hstep, if_pos hcmp]
      refine ⟨List.mem_cons_of_mem _ hmem, ?_, ?_⟩
      · intro x hx
        rcases List.mem_cons.mp hx with hx | hx
        · subst hx
          have h1 := hmin t (List.mem_cons_self _ _)
          omega
        · exact hmin x hx
      · intro x hx hxe
        rcases List.mem_cons.mp hx with hx | hx
        · subst hx
          have h1 := hmin t (List.mem_cons_self _ _)
          omega
        · exact htie x hx hxe
    · have hsort' : (hd :: rest).Sorted (· ≤ ·) := by
        refine List.pairwise_cons.mpr ⟨?_, hrest⟩
        intro x hx
        exact le_trans hhdt (ht x hx)
      rcases ih hd hsort' with ⟨hmem, hmin, htie⟩
      rw [hstep, if_neg hcmp]
      have hminhd := hmin hd (List.mem_cons_self _ _)
      refine ⟨?_, ?_, ?_⟩
      · rcases List.mem_cons.mp hmem with hx | hx
        · rw [hx]; exact List.mem_cons_self _ _
        · exact List.mem_cons_of_mem _ (List.mem_cons_of_mem _ hx)
      · intro x hx
        rcases List.mem_cons.mp hx with hx | hx
        · subst hx; exact hminhd
        · rcases List.mem_cons.mp hx with hx | hx
          · subst hx; omega
          · exact hmin x (List.mem_cons_of_mem _ hx)
      · intro x hx hxe
        rcases List.mem_cons.mp hx with hx | hx
        · subst hx; exact htie x (List.mem_cons_self _ _) hxe
        · rcases List.mem_cons.mp hx with hx | hx
          · subst hx
            have hrhd : pyMinAbs hd rest T ≤ hd := by
              apply htie hd (List.mem_cons_self _ _)
              omega
            omega
          · exact htie x (List.mem_cons_of_mem _ hx) hxe

/-! ### Store query lemmas -/

theorem app_getAllCacheTimestamps_sorted (fs : FS) :
    (app_getAllCacheTimestamps fs).Sorted (· ≤ ·) := by
  unfold app_getAllCacheTimestamps
  exact sortBy_int_sorted _

theorem app_getAllCacheTimestamps_pos (fs : FS) :
    ∀ t ∈ app_getAllCacheTimestamps fs, 0 < t := by
  intro t ht
  unfold app_getAllCacheTimestamps at ht
  rcases List.mem_filter.mp (mem_sortBy.mp ht) with ⟨_, hpos⟩
  simpa using hpos

/-! ### Concrete trees used as counterexamples and witnesses -/

/-- The same timestamp stored both flat (legacy) and hierarchical. -/
def fsDup : FS :=
  ⟨[["100.json.gz"], ["197001", "01", "100.json.gz"]], [["197001"], ["197001", "01"]]⟩

/-- A single hierarchical but uncompressed entry. -/
def fsHierPlain : FS :=
  ⟨[["197001", "01", "100.json"]], [["197001"], ["197001", "01"]]⟩

/-- Two hierarchical entries with timestamps 100 and 500. -/
def fsPair : FS :=
  ⟨[["197001", "01", "100.json.gz"], ["197001", "01", "500.json.gz"]],
   [["197001"], ["197001", "01"]]⟩

/-! ### Claim C8 -/

/-- C8: for every unix timestamp T and supported extension (".json.gz" or
".json"), parsing the timestamp back out of the path produced for T
round-trips exactly, including through the ".json.gz" double extension;
the store writer's path is the ".json.gz" instance of the same scheme. -/
theorem C8_roundtrip (T : Int) (ext : String)
    (hext : ext = ".json.gz" ∨ ext = ".json") :
    migrate_getTimestampFromPath (migrate_getCachePathForTimestamp T ext) = some T ∧
    fetch_getCachePathForTimestamp T = migrate_getCachePathForTimestamp T ".json.gz" :=
  ⟨getTimestamp_canonicalPath T ext hext, rfl⟩

theorem C8_roundtrip_witness :
    migrate_getTimestampFromPath
      (migrate_getCachePathForTimestamp 1700000000 ".json.gz") = some 1700000000 ∧
    fetch_getCachePathForTimestamp 1700000000 =
      migrate_getCachePathForTimestamp 1700000000 ".json.gz" :=
  C8_roundtrip 1700000000 ".json.gz" (Or.inl rfl)

/-! ### Claim C4 -/

/-- C4 (counterexample): app.get_timestamp_from_path returns the integer
zero, not a distinguished non-zero marker, on a filename whose stem does
not parse. -/
theorem C4_counterexample : app_getTimestampFromPath ["foo.json"] = 0 := by decide

/-- C4 (amended): on parse failure the migrator's get_timestamp_from_path
returns none (a distinguished invalid marker), while the app variant
returns the integer 0; the app's enumeration keeps only strictly positive
timestamps, so malformed names are filtered out of its results. -/
theorem C4_invalid_marker :
    (∀ p : Path, parseIntChars (strippedStem (basename p)).data = none →
      migrate_getTimestampFromPath p = none ∧ app_getTimestampFromPath p = 0) ∧
    (∀ (fs : FS), ∀ t ∈ app_getAllCacheTimestamps fs, 0 < t) := by
  constructor
  · intro p h
    unfold migrate_getTimestampFromPath app_getTimestampFromPath
    rw [h]
    exact ⟨rfl, rfl⟩
  · exact app_getAllCacheTimestamps_pos

theorem C4_invalid_marker_witness :
    migrate_getTimestampFromPath ["foo.json"] = none ∧
    app_getTimestampFromPath ["foo.json"] = 0 :=
  C4_invalid_marker.1 ["foo.json"] (by decide)

/-! ### Claim C5 -/

/-- C5 (counterexample): with timestamp 100 stored both flat and
hierarchical, get_all_cache_timestamps returns it twice, not once. -/
theorem C5_counterexample :
    app_getAllCacheTimestamps fsDup = [100, 100] ∧
    ¬ (app_getAllCacheTimestamps fsDup).Nodup := by
  constructor
  · decide
  · decide

/-- C5 (amended): get_all_cache_timestamps returns the valid (strictly
positive) timestamps sorted ascending, but does not deduplicate: a
timestamp stored under both a legacy flat path and a hierarchical path
appears once per file. -/
theorem C5_sorted_positive (fs : FS) :
    (app_getAllCacheTimestamps fs).Sorted (· ≤ ·) ∧
    ∀ t ∈ app_getAllCacheTimestamps fs, 0 < t :=
  ⟨app_getAllCacheTimestamps_sorted fs, app_getAllCacheTimestamps_pos fs⟩

theorem C5_sorted_positive_witness :
    (app_getAllCacheTimestamps fsDup).Sorted (· ≤ ·) ∧ (0 : Int) < 100 :=
  ⟨(C5_sorted_positive fsDup).1, (C5_sorted_positive fsDup).2 100 (by decide)⟩

/-! ### Claim C7 -/

/-- C7: on a store with at least one valid entry, the timestamp that
get_cache_file_by_timestamp resolves a request T to is a stored timestamp
with minimal absolute difference to T; on ties the lower timestamp wins,
and an exact hit resolves to T itself. -/
theorem C7_nearest_resolution (fs : FS) (T : Int)
    (hne : app_getAllCacheTimestamps fs ≠ []) :
    resolveClosest (app_getAllCacheTimestamps fs) T ∈ app_getAllCacheTimestamps fs ∧
    (∀ t ∈ app_getAllCacheTimestamps fs,
      |resolveClosest (app_getAllCacheTimestamps fs) T - T| ≤ |t - T|) ∧
    (∀ t ∈ app_getAllCacheTimestamps fs,
      |t - T| = |resolveClosest (app_getAllCacheTimestamps fs) T - T| →
        resolveClosest (app_getAllCacheTimestamps fs) T ≤ t) ∧
    (T ∈ app_getAllCacheTimestamps fs →
      resolveClosest (app_getAllCacheTimestamps fs) T = T) := by
  have hsort := app_getAllCacheTimestamps_sorted fs
  rcases hl : app_getAllCacheTimestamps fs with _ | ⟨hd, tl⟩
  · exact absurd hl hne
  · rw [hl] at hsort
    have hres : resolveClosest (hd :: tl) T =
        if (hd :: tl).contains T = true then T else pyMinAbs hd tl T := rfl
    rw [hres]
    by_cases hc : (hd :: tl).contains T = true
    · rw [if_pos hc]
      have hTmem : T ∈ hd :: tl := List.elem_iff.mp hc
      refine ⟨hTmem, ?_, ?_, fun _ => rfl⟩
      · intro t ht
        have h0 : |T - T| = 0 := by simp
        rw [h0]
        exact abs_nonneg _
      · intro t ht hte
        have h0 : |T - T| = 0 := by simp
        have ht0 : t - T = 0 := abs_eq_zero.mp (by rw [hte, h0])
        omega
    · rw [if_neg hc]
      have hTnot : T ∉ hd :: tl := fun hm => hc (List.elem_iff.mpr hm)
      rcases pyMinAbs_spec T tl hd hsort with ⟨hmem, hmin, htie⟩
      exact ⟨hmem, hmin, htie, fun hm => absurd hm hTnot⟩

theorem C7_nearest_resolution_witness :
    app_getAllCacheTimestamps fsPair ≠ [] ∧
    resolveClosest (app_getAllCacheTimestamps fsPair) 300 = 100 ∧
    resolveClosest (app_getAllCacheTimestamps fsPair) 300 ∈
      app_getAllCacheTimestamps fsPair :=
  ⟨by decide, by decide, (C7_nearest_resolution fsPair 300 (by decide)).1⟩

/-! ### Claim C6 -/

/-- C6 (counterexample): a store holding exactly one valid entry, a
hierarchical uncompressed file, is nonempty yet at(100) returns none:
none of the three probed locations (hierarchical .json.gz, flat .json.gz,
flat .json) backs the resolved timestamp. -/
theorem C6_counterexample :
    app_getAllCacheTimestamps fsHierPlain = [100] ∧
    app_getCacheFileByTimestamp fsHierPlain 100 = none := by
  constructor
  · decide
  · decide

/-- C6 (amended): at(T) returns none exactly when the store has no valid
timestamps at all, or when the resolved nearest timestamp has no backing
file at any of the three probed locations: the hierarchical gzipped path,
the legacy flat gzipped path, and the legacy flat uncompressed path. A
valid entry elsewhere (misplaced bucket, hierarchical uncompressed) is
not found. -/
theorem C6_none_characterization (fs : FS) (T : Int) :
    app_getCacheFileByTimestamp fs T = none ↔
      app_getAllCacheTimestamps fs = [] ∨
      (pexists fs (fetch_getCachePathForTimestamp
          (resolveClosest (app_getAllCacheTimestamps fs) T)) = false ∧
       pexists fs [intToString (resolveClosest (app_getAllCacheTimestamps fs) T)
          ++ ".json.gz"] = false ∧
       pexists fs [intToString (resolveClosest (app_getAllCacheTimestamps fs) T)
          ++ ".json"] = false) := by
  unfold app_getCacheFileByTimestamp
  split_ifs with h1 h2 h3 h4 <;> simp_all

/-! ### Claim C1 -/

/-- A raw snapshot with only a fetchedAt field, as in the spec's example. -/
def snapC1 : List (String × JVal) := [("fetchedAt", JVal.str "2024-03-15T10:00:00Z")]

/-- C1 (counterexample): save_to_cache writes the payload directly at the
final hierarchical path; the trace contains no write to a distinct
temporary path and no rename, so the claimed temp-then-rename discipline
does not hold even on a well-formed snapshot. -/
theorem C1_counterexample :
    (save_to_cache snapC1 0).1 =
      [FsOp.mkdirP [], FsOp.mkdirP ["202403", "15"],
       FsOp.write ["202403", "15", "1710496800.json.gz"]] ∧
    (save_to_cache snapC1 0).2 = some ["202403", "15", "1710496800.json.gz"] ∧
    ¬ atomicTempRename (save_to_cache snapC1 0).1
        ["202403", "15", "1710496800.json.gz"] := by
  refine ⟨rfl, rfl, ?_⟩
  rintro ⟨tmp, hne, hwrite, hrename⟩
  have htr : (save_to_cache snapC1 0).1 =
      [FsOp.mkdirP [], FsOp.mkdirP ["202403", "15"],
       FsOp.write ["202403", "15", "1710496800.json.gz"]] := rfl
  rw [htr] at hrename
  simp at hrename

/-- C1 (amended): for every raw snapshot, save_to_cache performs no rename
at all, and its only write (when the transform does not raise) goes
directly to the final returned path; there is no temporary file, so
freedom from partially-written reads rests on the single-writer
assumption, not on an atomic rename. -/
theorem C1_direct_write (data : List (String × JVal)) (now : Int) :
    (∀ s t, FsOp.rename s t ∉ (save_to_cache data now).1) ∧
    (∀ p, FsOp.write p ∈ (save_to_cache data now).1 →
      (save_to_cache data now).2 = some p) := by
  unfold save_to_cache
  cases htr : transform_to_optimized data with
  | error e =>
    constructor
    · intro s t h
      simp at h
    · intro p hp
      simp at hp
  | ok v =>
    constructor
    · intro s t h
      simp at h
    · intro p hp
      simp at hp
      rw [hp]

theorem C1_direct_write_witness :
    FsOp.write ["202403", "15", "1710496800.json.gz"] ∈ (save_to_cache snapC1 0).1 ∧
    (save_to_cache snapC1 0).2 = some ["202403", "15", "1710496800.json.gz"] :=
  ⟨by decide, (C1_direct_write snapC1 0).2 _ (by decide)⟩

/-! ### Transformer lemmas -/

theorem jget_cons (kv : String × JVal) (rest : List (String × JVal)) (k : String) :
    jget (kv :: rest) k = if (kv.1 == k) = true then some kv.2 else jget rest k := by
  by_cases hp : (kv.1 == k) = true
  · unfold jget
    rw [@List.find?_cons_of_pos (String × JVal) (fun kv => kv.1 == k) kv rest hp,
      if_pos hp]
    rfl
  · unfold jget
    rw [@List.find?_cons_of_neg (String × JVal) (fun kv => kv.1 == k) kv rest
      (by simpa using hp), if_neg hp]

theorem jget_map_replace (fields : List (String × JVal)) (k k' : String) (v : JVal)
    (h : k' ≠ k) :
    jget (fields.map (fun kv => if kv.1 == k then (k, v) else kv)) k' =
      jget fields k' := by
  induction fields with
  | nil => rfl
  | cons kv rest ih =>
    rw [List.map_cons, jget_cons, jget_cons]
    have hkk : (k == k') = false := beq_eq_false_iff_ne.mpr (fun he => h he.symm)
    by_cases hk : (kv.1 == k) = true
    · rw [if_pos hk]
      have hkv : kv.1 = k := by simpa using hk
      rw [if_neg (by simp [hkk]), if_neg (by simp [hkv, hkk]), ih]
    · rw [if_neg hk]
      by_cases hk' : (kv.1 == k') = true
      · rw [if_pos hk', if_pos hk']
      · rw [if_neg hk', if_neg hk', ih]

theorem jget_append_single_ne (fields : List (String × JVal)) (k k' : String)
    (v : JVal) (h : k' ≠ k) :
    jget (fields ++ [(k, v)]) k' = jget fields k' := by
  unfold jget
  rw [List.find?_append]
  have hkk : (k == k') = false := beq_eq_false_iff_ne.mpr (fun he => h he.symm)
  cases hf : List.find? (fun kv => kv.1 == k') fields
  · simp [List.find?, hkk]
  · simp

/-- Keys other than the upserted one are untouched. -/
theorem jget_jupsert_ne (fields : List (String × JVal)) (k k' : String) (v : JVal)
    (h : k' ≠ k) : jget (jupsert fields k v) k' = jget fields k' := by
  unfold jupsert
  by_cases hmem : (fields.any fun kv => kv.1 == k) = true
  · rw [if_pos hmem]
    exact jget_map_replace fields k k' v h
  · rw [if_neg hmem]
    exact jget_append_single_ne fields k k' v h

/-- The host shapes on which the per-host transform cannot raise: slot
fields, when present, are lists, and a hostname key exists with a hashable
(non-list, non-dict) value. -/
def WFRawHost (hf : List (String × JVal)) : Prop :=
  (jget hf "cpuSlots" = none ∨ ∃ xs, jget hf "cpuSlots" = some (JVal.arr xs)) ∧
  (jget hf "gpuSlots" = none ∨ ∃ xs, jget hf "gpuSlots" = some (JVal.arr xs)) ∧
  (∃ hn, jget hf "hostname" = some hn ∧ JVal.hashable hn = true)

/-- The raw-snapshot shapes on which transform_to_optimized cannot raise:
each optional top-level field is absent or of its expected container type,
every hardware-group hostname list holds hashable values, and every host
record is well-formed. -/
def WFRaw (data : List (String × JVal)) : Prop :=
  (jget data "hardwareGroups" = none ∨
    ∃ gs, jget data "hardwareGroups" = some (JVal.obj gs) ∧
      ∀ gv ∈ gs, ∃ hs, gv.2 = JVal.arr hs ∧
        ∀ h ∈ hs, JVal.hashable h = true) ∧
  (jget data "hostDetails" = none ∨
    ∃ hs, jget data "hostDetails" = some (JVal.arr hs) ∧
      ∀ h ∈ hs, ∃ hfields, h = JVal.obj hfields ∧ WFRawHost hfields) ∧
  (jget data "raw" = none ∨
    ∃ rf, jget data "raw" = some (JVal.obj rf) ∧
      (jget rf "jobs" = none ∨ ∃ jf, jget rf "jobs" = some (JVal.obj jf)))

theorem h2gInsert_ok (m : List (JVal × String)) (h : JVal) (g : String)
    (hh : JVal.hashable h = true) : ∃ m2, h2gInsert m h g = Except.ok m2 := by
  unfold h2gInsert
  rw [if_pos hh]
  exact ⟨_, rfl⟩

theorem h2gLookup_ok (m : List (JVal × String)) (h : JVal)
    (hh : JVal.hashable h = true) :
    h2gLookup m h = Except.ok
      (((m.find? (fun kv => kv.1.beq h)).map (fun kv => kv.2)).getD "Unknown") := by
  unfold h2gLookup
  rw [if_pos hh]

theorem optimizeHost_ok (h2g : List (JVal × String)) (hf : List (String × JVal))
    (hwf : WFRawHost hf) : ∃ v, optimizeHost h2g hf = .ok v := by
  rcases hwf with ⟨hcpu, hgpu, ⟨hn, hhn, hhash⟩⟩
  have hcpu' : ∃ xs, pyIter ((jget hf "cpuSlots").getD (JVal.arr [])) =
      Except.ok xs := by
    rcases hcpu with hc | ⟨xs, hc⟩
    · exact ⟨[], by rw [hc]; rfl⟩
    · exact ⟨xs, by rw [hc]; rfl⟩
  have hgpu' : ∃ xs, pyIter ((jget hf "gpuSlots").getD (JVal.arr [])) =
      Except.ok xs := by
    rcases hgpu with hc | ⟨xs, hc⟩
    · exact ⟨[], by rw [hc]; rfl⟩
    · exact ⟨xs, by rw [hc]; rfl⟩
  rcases hcpu' with ⟨cxs, hc⟩
  rcases hgpu' with ⟨gxs, hgx⟩
  exact ⟨_, by
    unfold optimizeHost
    simp only [hc, hgx, hhn, h2gLookup_ok h2g hn hhash]
    rfl⟩

theorem hardwareGroupsStep_ok (data : List (String × JVal))
    (h : jget data "hardwareGroups" = none ∨
      ∃ gs, jget data "hardwareGroups" = some (JVal.obj gs) ∧
        ∀ gv ∈ gs, ∃ hs, gv.2 = JVal.arr hs ∧ ∀ x ∈ hs, JVal.hashable x = true) :
    ∃ hg, (match jget data "hardwareGroups" with
      | none => Except.ok []
      | some (.obj fields) => Except.ok fields
      | some _ => Except.error "AttributeError: no attribute items") = Except.ok hg ∧
      ∀ gv ∈ hg, ∃ hs, gv.2 = JVal.arr hs ∧ ∀ x ∈ hs, JVal.hashable x = true := by
  rcases h with h | ⟨gs, h, hprop⟩
  · refine ⟨[], by rw [h], ?_⟩
    intro gv hgv
    cases hgv
  · exact ⟨gs, by rw [h], hprop⟩

theorem h2gInnerFold_ok (g : String) (hs : List JVal)
    (hhs : ∀ h ∈ hs, JVal.hashable h = true) :
    ∀ acc : List (JVal × String),
      ∃ m, (hs.foldlM (fun m h => h2gInsert m h g) acc :
        Except String (List (JVal × String))) = Except.ok m := by
  induction hs with
  | nil => intro acc; exact ⟨acc, rfl⟩
  | cons h rest ih =>
    intro acc
    rcases h2gInsert_ok acc h g (hhs h (List.mem_cons_self _ _)) with ⟨m1, hm1⟩
    rcases ih (fun x hx => hhs x (List.mem_cons_of_mem _ hx)) m1 with ⟨m, hm⟩
    refine ⟨m, ?_⟩
    rw [List.foldlM_cons, hm1]
    exact hm

theorem hgStep_arr (acc : List (JVal × String)) (gv : String × JVal)
    (hsx : List JVal) (hg : gv.2 = JVal.arr hsx) :
    (match pyIter gv.2 with
     | Except.error e => Except.error e
     | Except.ok hs => hs.foldlM (fun m h => h2gInsert m h gv.1) acc) =
      hsx.foldlM (fun m h => h2gInsert m h gv.1) acc := by
  rw [hg]
  rfl

theorem h2gFold_ok (gs : List (String × JVal))
    (hgs : ∀ gv ∈ gs, ∃ hsx, gv.2 = JVal.arr hsx ∧
      ∀ x ∈ hsx, JVal.hashable x = true) :
    ∀ acc : List (JVal × String),
      ∃ m, (gs.foldlM (fun acc gv =>
        match pyIter gv.2 with
        | Except.error e => Except.error e
        | Except.ok hs => hs.foldlM (fun m h => h2gInsert m h gv.1) acc) acc :
          Except String (List (JVal × String))) = Except.ok m := by
  induction gs with
  | nil => intro acc; exact ⟨acc, rfl⟩
  | cons g rest ih =>
    intro acc
    rcases hgs g (List.mem_cons_self _ _) with ⟨hsx, hg, hhash⟩
    rcases h2gInnerFold_ok g.1 hsx hhash acc with ⟨m1, hm1⟩
    rcases ih (fun x hx => hgs x (List.mem_cons_of_mem _ hx)) m1 with ⟨m, hm⟩
    refine ⟨m, ?_⟩
    rw [List.foldlM_cons, hgStep_arr acc g hsx hg, hm1]
    exact hm

theorem mapM_hosts_ok (h2g : List (JVal × String)) (hs : List JVal)
    (hh : ∀ h ∈ hs, ∃ hfields, h = JVal.obj hfields ∧ WFRawHost hfields) :
    ∃ out, (hs.mapM (fun h =>
      match h with
      | JVal.obj hostFields => optimizeHost h2g hostFields
      | _ => Except.error "AttributeError: no attribute get") :
        Except String (List JVal)) = Except.ok out := by
  induction hs with
  | nil => exact ⟨[], rfl⟩
  | cons h rest ih =>
    rcases hh h (List.mem_cons_self _ _) with ⟨hfields, rfl, hwf⟩
    rcases optimizeHost_ok h2g hfields hwf with ⟨v, hv⟩
    rcases ih (fun x hx => hh x (List.mem_cons_of_mem _ hx)) with ⟨out, hout⟩
    refine ⟨v :: out, ?_⟩
    rw [List.mapM_cons]
    simp only [hv, hout]
    rfl

/-! ### Claim C9 -/

/-- C9 (counterexample): a snapshot whose hostDetails contains a host
record without a hostname key makes transform_to_optimized raise
(host["hostname"] is a KeyError), and a host whose hostname value is a
list raises TypeError in the hashed group lookup, so the transform is not
total over raw snapshots. -/
theorem C9_counterexample :
    (∃ e, transform_to_optimized [("hostDetails", JVal.arr [JVal.obj []])] =
      Except.error e) ∧
    (∃ e, transform_to_optimized
        [("hostDetails", JVal.arr [JVal.obj [("hostname", JVal.arr [])]])] =
      Except.error e) := ⟨⟨_, rfl⟩, ⟨_, rfl⟩⟩

/-- C9 (amended): transform_to_optimized never raises on any snapshot
whose present fields are of the expected container shapes (hostDetails a
list of host dicts, hardwareGroups a dict whose values are lists of
hashable hostnames, slot fields lists, raw a dict whose jobs entry is a
dict) and whose host records each carry a hashable hostname key; absent
optional fields (hostDetails, hardwareGroups, activeUsers, raw, ...) are
tolerated by substituting empty containers. -/
theorem C9_total_on_wellformed (data : List (String × JVal)) (hwf : WFRaw data) :
    ∃ v, transform_to_optimized data = Except.ok v := by
  rcases hwf with ⟨hhg, hhd, hraw⟩
  rcases hardwareGroupsStep_ok data hhg with ⟨hg, hgeq, hgprop⟩
  rcases h2gFold_ok hg hgprop [] with ⟨h2g, hfold⟩
  have hhosts : ∃ hs, (match jget data "hostDetails" with
      | none => Except.ok []
      | some v => pyIter v) = Except.ok hs ∧
      ∀ h ∈ hs, ∃ hfields, h = JVal.obj hfields ∧ WFRawHost hfields := by
    rcases hhd with h | ⟨hs, h, hp⟩
    · exact ⟨[], by rw [h], by intro x hx; cases hx⟩
    · exact ⟨hs, by rw [h]; rfl, hp⟩
  rcases hhosts with ⟨hs, hhseq, hhsprop⟩
  rcases mapM_hosts_ok h2g hs hhsprop with ⟨out, hout⟩
  have hrawstep : ∃ rf, (match jget data "raw" with
      | none => Except.ok []
      | some (.obj fields) => Except.ok fields
      | some _ => Except.error "AttributeError: no attribute get") = Except.ok rf ∧
      (jget rf "jobs" = none ∨ ∃ jf, jget rf "jobs" = some (JVal.obj jf)) := by
    rcases hraw with h | ⟨rf, h, hj⟩
    · exact ⟨[], by rw [h], Or.inl rfl⟩
    · exact ⟨rf, by rw [h], hj⟩
  rcases hrawstep with ⟨rf, hrfeq, hjobs⟩
  have hjobsstep : ∃ jf, (match jget rf "jobs" with
      | none => Except.ok []
      | some (.obj fields) => Except.ok fields
      | some _ => Except.error "AttributeError: no attribute get") = Except.ok jf := by
    rcases hjobs with h | ⟨jf, h⟩
    · exact ⟨[], by rw [h]⟩
    · exact ⟨jf, by rw [h]⟩
  rcases hjobsstep with ⟨jf, hjfeq⟩
  unfold transform_to_optimized
  simp only [hgeq, hfold, hhseq, hout, hrfeq, hjfeq]
  exact ⟨_, rfl⟩

theorem C9_total_on_wellformed_witness :
    ∃ v, transform_to_optimized
      [("hardwareGroups", JVal.obj [("groupA", JVal.arr [JVal.str "h1"])]),
       ("hostDetails", JVal.arr [JVal.obj [("hostname", JVal.str "h1")]])] =
      Except.ok v :=
  C9_total_on_wellformed
    [("hardwareGroups", JVal.obj [("groupA", JVal.arr [JVal.str "h1"])]),
     ("hostDetails", JVal.arr [JVal.obj [("hostname", JVal.str "h1")]])]
    ⟨Or.inr ⟨[("groupA", JVal.arr [JVal.str "h1"])], rfl, by
        intro gv hgv
        rcases List.mem_singleton.mp hgv with rfl
        exact ⟨[JVal.str "h1"], rfl, by
          intro x hx
          rcases List.mem_singleton.mp hx with rfl
          rfl⟩⟩,
     Or.inr ⟨[JVal.obj [("hostname", JVal.str "h1")]], rfl, by
        intro h hh
        rcases List.mem_singleton.mp hh with rfl
        exact ⟨[("hostname", JVal.str "h1")], rfl, Or.inl rfl, Or.inl rfl,
          JVal.str "h1", rfl, rfl⟩⟩,
     Or.inl rfl⟩

/-! ### Claim C10 -/

/-- C10: the optimized host record produced for a raw host preserves every
per-host key other than cpuSlots, gpuSlots and hardwareGroup with exactly
its original value. -/
theorem C10_host_frame (h2g : List (JVal × String))
    (host out : List (String × JVal)) (k : String)
    (hok : optimizeHost h2g host = Except.ok (JVal.obj out))
    (hk1 : k ≠ "cpuSlots") (hk2 : k ≠ "gpuSlots") (hk3 : k ≠ "hardwareGroup") :
    jget out k = jget host k := by
  unfold optimizeHost at hok
  split at hok
  · simp at hok
  · split at hok
    · simp at hok
    · split at hok
      · simp at hok
      · split at hok
        · simp at hok
        · simp only [Except.ok.injEq, JVal.obj.injEq] at hok
          rw [← hok]
          rw [jget_jupsert_ne _ _ _ _ hk3, jget_jupsert_ne _ _ _ _ hk2,
            jget_jupsert_ne _ _ _ _ hk1]

theorem C10_host_frame_witness :
    jget [("hostname", JVal.str "h"), ("load", JVal.num 5),
          ("cpuSlots", JVal.obj []), ("gpuSlots", JVal.obj []),
          ("hardwareGroup", JVal.str "Unknown")] "load" =
      jget [("hostname", JVal.str "h"), ("load", JVal.num 5)] "load" :=
  C10_host_frame [] [("hostname", JVal.str "h"), ("load", JVal.num 5)]
    [("hostname", JVal.str "h"), ("load", JVal.num 5),
     ("cpuSlots", JVal.obj []), ("gpuSlots", JVal.obj []),
     ("hardwareGroup", JVal.str "Unknown")] "load"
    rfl (by decide) (by decide) (by decide)

/-! ### Migrator infrastructure: targets, well-formed trees, move effects -/

/-- The destination the migrator computes for a file: its parsed timestamp
rebucketed with its preserved extension. -/
def targetOf (p : Path) : Option Path :=
  (migrate_getTimestampFromPath p).map
    (fun ts => migrate_getCachePathForTimestamp ts (extFor p))

/-- No two distinct relocation candidates that are actually out of place
share the same computed destination. -/
def noShareB (p q : Path) : Bool :=
  match targetOf p, targetOf q with
  | some tp, some tq => (p == tp) || (q == tq) || !(tp == tq)
  | _, _ => true

def noSharedTargets : List Path → Bool
  | [] => true
  | p :: rest => rest.all (noShareB p) && noSharedTargets rest

/-- A well-formed directory tree: entries are listed once, no path is both
a file and a directory. -/
def WFTree (fs : FS) : Prop :=
  fs.files.Nodup ∧ fs.dirs.Nodup ∧ ∀ p ∈ fs.files, p ∉ fs.dirs

theorem extFor_cases (p : Path) : extFor p = ".json.gz" ∨ extFor p = ".json" := by
  unfold extFor
  by_cases h : psuffix (basename p) = ".gz"
  · rw [if_pos h]; exact Or.inl rfl
  · rw [if_neg h]; exact Or.inr rfl

theorem migratePath_length (ts : Int) (ext : String) :
    (migrate_getCachePathForTimestamp ts ext).length = 3 := rfl

/-- A path that coincides with a canonical bucketed path is its own
migration target. -/
theorem targetOf_self_of_canonical (tsq : Int) (e : String)
    (he : e = ".json.gz" ∨ e = ".json") :
    targetOf (migrate_getCachePathForTimestamp tsq e) =
      some (migrate_getCachePathForTimestamp tsq e) := by
  unfold targetOf
  rw [getTimestamp_canonicalPath tsq e he]
  show some (migrate_getCachePathForTimestamp tsq
    (extFor (migrate_getCachePathForTimestamp tsq e))) = _
  rw [extFor_canonical tsq e he]

theorem mem_addDirsIfMissing (new : List Path) :
    ∀ (ds : List Path) (x : Path), x ∈ addDirsIfMissing ds new ↔ x ∈ ds ∨ x ∈ new := by
  induction new with
  | nil =>
    intro ds x
    simp [addDirsIfMissing]
  | cons d rest ih =>
    intro ds x
    show x ∈ addDirsIfMissing (if ds.contains d then ds else ds ++ [d]) rest ↔ _
    rw [ih]
    by_cases hc : ds.contains d = true
    · rw [if_pos hc]
      have hd : d ∈ ds := List.elem_iff.mp hc
      constructor
      · rintro (h | h)
        · exact Or.inl h
        · exact Or.inr (List.mem_cons_of_mem _ h)
      · rintro (h | h)
        · exact Or.inl h
        · rcases List.mem_cons.mp h with rfl | h
          · exact Or.inl hd
          · exact Or.inr h
    · rw [if_neg hc]
      constructor
      · rintro (h | h)
        · rcases List.mem_append.mp h with h | h
          · exact Or.inl h
          · rcases List.mem_singleton.mp h with rfl
            exact Or.inr (List.mem_cons_self _ _)
        · exact Or.inr (List.mem_cons_of_mem _ h)
      · rintro (h | h)
        · exact Or.inl (List.mem_append.mpr (Or.inl h))
        · rcases List.mem_cons.mp h with rfl | h
          · exact Or.inl (List.mem_append.mpr (Or.inr (List.mem_singleton.mpr rfl)))
          · exact Or.inr h

theorem length_of_mem_properPrefixes {q p : Path} (h : q ∈ properPrefixes p) :
    q.length < p.length ∧ 0 < q.length := by
  unfold properPrefixes at h
  rcases List.mem_map.mp h with ⟨i, hi, rfl⟩
  rw [List.mem_range] at hi
  rw [List.length_take]
  omega

theorem mem_map_rebase_iff (l : List Path) (src dst t : Path)
    (hdst3 : dst.length = 3) (ht3 : t.length = 3)
    (hsrc : ¬ src <+: t) (hne : dst ≠ t) :
    t ∈ l.map (rebase src dst) ↔ t ∈ l := by
  constructor
  · intro hmem
    rcases List.mem_map.mp hmem with ⟨u, hu, hru⟩
    unfold rebase at hru
    by_cases hpre : src.isPrefixOf u = true
    · rw [if_pos hpre] at hru
      have hpre' : src <+: u := List.isPrefixOf_iff_prefix.mp hpre
      exfalso
      have hlen : u.length = src.length := by
        have h1 := hpre'.length_le
        have h2 : (dst ++ u.drop src.length).length = t.length := by rw [hru]
        rw [List.length_append, List.length_drop] at h2
        omega
      have husrc : src = u := hpre'.eq_of_length hlen.symm
      subst husrc
      rw [List.drop_length, List.append_nil] at hru
      exact hne hru
    · rw [if_neg hpre] at hru
      exact hru ▸ hu
  · intro hmem
    refine List.mem_map.mpr ⟨t, hmem, ?_⟩
    unfold rebase
    rw [if_neg (fun hc => hsrc (List.isPrefixOf_iff_prefix.mp hc))]

/-- Moving one entry to a three-component destination neither creates nor
destroys presence at any other three-component path that the source does
not dominate. -/
theorem pexists_doMove_of_ne (fs : FS) (src dst t : Path)
    (hdst3 : dst.length = 3) (ht3 : t.length = 3)
    (hsrc : ¬ src <+: t) (hne : dst ≠ t) :
    pexists (doMove fs src dst) t = pexists fs t := by
  unfold pexists doMove
  rw [Bool.eq_iff_iff]
  simp only [Bool.or_eq_true, List.elem_iff]
  have hf := mem_map_rebase_iff fs.files src dst t hdst3 ht3 hsrc hne
  have hd := mem_map_rebase_iff (addDirsIfMissing fs.dirs (properPrefixes dst))
    src dst t hdst3 ht3 hsrc hne
  have hadd : t ∈ addDirsIfMissing fs.dirs (properPrefixes dst) ↔ t ∈ fs.dirs := by
    rw [mem_addDirsIfMissing]
    constructor
    · rintro (h | h)
      · exact h
      · rcases length_of_mem_properPrefixes h with ⟨hlt, _⟩
        rw [hdst3] at hlt
        omega
    · exact Or.inl
  rw [hf, hd, hadd]

/-! ### Candidate and target lemmas -/

theorem targetOf_some_elim {q tq : Path} (h : targetOf q = some tq) :
    ∃ tsq, migrate_getTimestampFromPath q = some tsq ∧
      tq = migrate_getCachePathForTimestamp tsq (extFor q) := by
  unfold targetOf at h
  cases hq : migrate_getTimestampFromPath q
  · rw [hq] at h; simp at h
  · rw [hq] at h
    simp at h
    exact ⟨_, rfl, h.symm⟩

theorem targetOf_of_parse {q : Path} {ts : Int}
    (h : migrate_getTimestampFromPath q = some ts) :
    targetOf q = some (migrate_getCachePathForTimestamp ts (extFor q)) := by
  unfold targetOf
  rw [h]
  rfl

theorem noShareB_spec {p q tp tq : Path}
    (h : noShareB p q = true)
    (hp : targetOf p = some tp) (hq : targetOf q = some tq)
    (hpm : p ≠ tp) (hqm : q ≠ tq) : tp ≠ tq := by
  unfold noShareB at h
  rw [hp, hq] at h
  simp only [Bool.or_eq_true, beq_iff_eq, Bool.not_eq_true', beq_eq_false_iff_ne] at h
  rcases h with (h | h) | h
  · exact absurd h hpm
  · exact absurd h hqm
  · exact h

theorem noSharedTargets_cons {p : Path} {rest : List Path}
    (h : noSharedTargets (p :: rest) = true) :
    (∀ q ∈ rest, noShareB p q = true) ∧ noSharedTargets rest = true := by
  unfold noSharedTargets at h
  simp only [Bool.and_eq_true] at h
  exact ⟨fun q hq => List.all_eq_true.mp h.1 q hq, h.2⟩

theorem mem_hierCandidates {fs : FS} {q : Path} (h : q ∈ hierCandidates fs) :
    q.length = 3 ∧
    (nameEndsWith (basename q) ".json.gz" = true ∨
      nameEndsWith (basename q) ".json" = true) ∧
    q ∈ fs.files ++ fs.dirs := by
  unfold hierCandidates at h
  have h' := mem_sortBy.mp h
  rcases List.mem_append.mp h' with h' | h' <;>
    rcases List.mem_filter.mp h' with ⟨hm, hp⟩ <;>
    simp only [Bool.and_eq_true] at hp
  · exact ⟨by simpa using hp.1, Or.inl hp.2, hm⟩
  · exact ⟨by simpa using hp.1, Or.inr hp.2, hm⟩

theorem mem_flatCandidates {fs : FS} {q : Path} (h : q ∈ flatCandidates fs) :
    q.length = 1 ∧
    (nameEndsWith (basename q) ".json.gz" = true ∨
      nameEndsWith (basename q) ".json" = true) ∧
    q ∈ fs.files := by
  unfold flatCandidates at h
  have h' := mem_sortBy.mp h
  rcases List.mem_append.mp h' with h' | h' <;>
    rcases List.mem_filter.mp h' with ⟨hm, hp⟩ <;>
    simp only [Bool.and_eq_true] at hp
  · exact ⟨by simpa using hp.1, Or.inl hp.2, hm⟩
  · exact ⟨by simpa using hp.1, Or.inr hp.2, hm⟩

theorem json_gz_not_json (n : String)
    (h1 : nameEndsWith n ".json.gz" = true)
    (h2 : nameEndsWith n ".json" = true) : False := by
  unfold nameEndsWith at h1 h2
  have s1 := List.isSuffixOf_iff_suffix.mp h1
  have s2 := List.isSuffixOf_iff_suffix.mp h2
  have p1 : (".json.gz".data).reverse <+: n.data.reverse := List.reverse_prefix.mpr s1
  have p2 : (".json".data).reverse <+: n.data.reverse := List.reverse_prefix.mpr s2
  rcases List.prefix_or_prefix_of_prefix p1 p2 with h | h
  · exact absurd h (by decide)
  · exact absurd h (by decide)

theorem hierCandidates_nodup (fs : FS) (hwf : WFTree fs) :
    (hierCandidates fs).Nodup := by
  rcases hwf with ⟨hf, hd, hdisj⟩
  have hfd : (fs.files ++ fs.dirs).Nodup := hf.append hd hdisj
  apply nodup_sortBy
  refine (hfd.filter _).append (hfd.filter _) ?_
  intro x hx1 hx2
  rcases List.mem_filter.mp hx1 with ⟨_, hp1⟩
  rcases List.mem_filter.mp hx2 with ⟨_, hp2⟩
  simp only [Bool.and_eq_true] at hp1 hp2
  exact json_gz_not_json _ hp1.2 hp2.2

theorem flatCandidates_nodup (fs : FS) (hwf : WFTree fs) :
    (flatCandidates fs).Nodup := by
  rcases hwf with ⟨hf, _, _⟩
  apply nodup_sortBy
  refine (hf.filter _).append (hf.filter _) ?_
  intro x hx1 hx2
  rcases List.mem_filter.mp hx1 with ⟨_, hp1⟩
  rcases List.mem_filter.mp hx2 with ⟨_, hp2⟩
  simp only [Bool.and_eq_true] at hp1 hp2
  exact json_gz_not_json _ hp1.2 hp2.2

theorem not_dot_mem_bucketDir (y : Int) (m : Nat) :
    '.' ∉ (yearString y ++ pad2 m).data := by
  rw [String.data_append]
  intro h
  rcases List.mem_append.mp h with h | h
  · exact not_dot_mem_intToString y h
  · exact not_dot_mem_pad2 m h

/-- A flat file whose name carries a cache extension is never a path
prefix of a bucketed path: the bucket directory name has no dot. -/
theorem flat_not_prefix_of_bucketed (n : String) (ts : Int) (ext : String)
    (hn : nameEndsWith n ".json.gz" = true ∨ nameEndsWith n ".json" = true) :
    ¬ [n] <+: migrate_getCachePathForTimestamp ts ext := by
  intro hpre
  rcases hpre with ⟨t, ht⟩
  have hhead : n = yearString (utcYearMonthDay ts).1 ++ pad2 (utcYearMonthDay ts).2.1 := by
    have : n :: t = migrate_getCachePathForTimestamp ts ext := ht
    unfold migrate_getCachePathForTimestamp at this
    exact (List.cons.injEq _ _ _ _ ▸ this).1
  have hdot : '.' ∈ n.data := by
    rcases hn with h | h
    · exact sublist_mem_of_endsWith h (by decide)
    · exact sublist_mem_of_endsWith h (by decide)
  rw [hhead] at hdot
  exact not_dot_mem_bucketDir _ _ hdot

/-! ### Dry-run versus real-run decision equivalence -/

theorem fixStep_parse_none (d : Bool) (st : PhaseState) (p : Path)
    (h : migrate_getTimestampFromPath p = none) :
    fixStep d st p = { st with skipped := st.skipped + 1 } := by
  unfold fixStep
  rw [h]

theorem fixStep_parse_some (d : Bool) (st : PhaseState) (p : Path) (ts : Int)
    (h : migrate_getTimestampFromPath p = some ts) :
    fixStep d st p =
      if p = migrate_getCachePathForTimestamp ts (extFor p) then st
      else if pexists st.fs (migrate_getCachePathForTimestamp ts (extFor p)) then
        { st with skipped := st.skipped + 1 }
      else
        { st with
          fs := if d then st.fs
                else doMove st.fs p (migrate_getCachePathForTimestamp ts (extFor p))
          acted := st.acted + 1
          log := st.log ++ [(p, migrate_getCachePathForTimestamp ts (extFor p))] } := by
  unfold fixStep
  rw [h]

theorem flatStep_parse_none (d : Bool) (st : PhaseState) (p : Path)
    (h : migrate_getTimestampFromPath p = none) :
    flatStep d st p = { st with skipped := st.skipped + 1 } := by
  unfold flatStep
  rw [h]

theorem flatStep_parse_some (d : Bool) (st : PhaseState) (p : Path) (ts : Int)
    (h : migrate_getTimestampFromPath p = some ts) :
    flatStep d st p =
      if pexists st.fs (migrate_getCachePathForTimestamp ts (extFor p)) then
        { st with skipped := st.skipped + 1 }
      else
        { st with
          fs := if d then st.fs
                else doMove st.fs p (migrate_getCachePathForTimestamp ts (extFor p))
          acted := st.acted + 1
          log := st.log ++ [(p, migrate_getCachePathForTimestamp ts (extFor p))] } := by
  unfold flatStep
  rw [h]

theorem fixFold_dry_real (fs0 : FS) (cands : List Path) :
    ∀ (fsR : FS) (a s : Nat) (lg : List (Path × Path)),
      (∀ q ∈ cands, q.length = 3) →
      noSharedTargets cands = true →
      (∀ q ∈ cands, ∀ tq, targetOf q = some tq → q ≠ tq →
        pexists fsR tq = pexists fs0 tq) →
      (cands.foldl (fixStep true) ⟨fs0, a, s, lg⟩).acted =
        (cands.foldl (fixStep false) ⟨fsR, a, s, lg⟩).acted ∧
      (cands.foldl (fixStep true) ⟨fs0, a, s, lg⟩).skipped =
        (cands.foldl (fixStep false) ⟨fsR, a, s, lg⟩).skipped ∧
      (cands.foldl (fixStep true) ⟨fs0, a, s, lg⟩).log =
        (cands.foldl (fixStep false) ⟨fsR, a, s, lg⟩).log := by
  induction cands with
  | nil => intro fsR a s lg _ _ _; exact ⟨rfl, rfl, rfl⟩
  | cons p rest ih =>
    intro fsR a s lg hlen hshare hagree
    rcases noSharedTargets_cons hshare with ⟨hsp, hsrest⟩
    have hlenrest : ∀ q ∈ rest, q.length = 3 :=
      fun q hq => hlen q (List.mem_cons_of_mem _ hq)
    rw [List.foldl_cons, List.foldl_cons]
    cases hts : migrate_getTimestampFromPath p with
    | none =>
      rw [fixStep_parse_none true _ p hts, fixStep_parse_none false _ p hts]
      exact ih fsR a (s + 1) lg hlenrest hsrest
        (fun q hq => hagree q (List.mem_cons_of_mem _ hq))
    | some ts =>
      rw [fixStep_parse_some true _ p ts hts, fixStep_parse_some false _ p ts hts]
      by_cases hpc : p = migrate_getCachePathForTimestamp ts (extFor p)
      · rw [if_pos hpc, if_pos hpc]
        exact ih fsR a s lg hlenrest hsrest
          (fun q hq => hagree q (List.mem_cons_of_mem _ hq))
      · rw [if_neg hpc, if_neg hpc]
        have htp : targetOf p = some (migrate_getCachePathForTimestamp ts (extFor p)) :=
          targetOf_of_parse hts
        have hag := hagree p (List.mem_cons_self _ _) _ htp hpc
        rw [hag]
        by_cases hex : pexists fs0 (migrate_getCachePathForTimestamp ts (extFor p)) = true
        · rw [if_pos hex, if_pos hex]
          exact ih fsR a (s + 1) lg hlenrest hsrest
            (fun q hq => hagree q (List.mem_cons_of_mem _ hq))
        · rw [if_neg hex, if_neg hex]
          apply ih (doMove fsR p (migrate_getCachePathForTimestamp ts (extFor p)))
            (a + 1) s (lg ++ [(p, migrate_getCachePathForTimestamp ts (extFor p))])
            hlenrest hsrest
          intro q hq tq htq hqne
          rcases targetOf_some_elim htq with ⟨tsq, hparseq, htqeq⟩
          have h3q : tq.length = 3 := by rw [htqeq]; rfl
          have hppre : ¬ p <+: tq := by
            intro hpre
            have hpq : p = tq :=
              hpre.eq_of_length (by rw [hlen p (List.mem_cons_self _ _), h3q])
            have hself : targetOf p = some p := by
              rw [hpq, htqeq]
              exact targetOf_self_of_canonical tsq (extFor q) (extFor_cases q)
            rw [htp] at hself
            exact hpc (by injection hself with h; exact h.symm)
          have htpq : migrate_getCachePathForTimestamp ts (extFor p) ≠ tq :=
            noShareB_spec (hsp q hq) htp htq hpc hqne
          rw [pexists_doMove_of_ne fsR p _ tq
            (migratePath_length ts (extFor p)) h3q hppre htpq]
          exact hagree q (List.mem_cons_of_mem _ hq) tq htq hqne

theorem flatFold_dry_real (fs0 : FS) (cands : List Path) :
    ∀ (fsR : FS) (a s : Nat) (lg : List (Path × Path)),
      (∀ q ∈ cands, q.length = 1 ∧
        (nameEndsWith (basename q) ".json.gz" = true ∨
          nameEndsWith (basename q) ".json" = true)) →
      noSharedTargets cands = true →
      (∀ q ∈ cands, ∀ tq, targetOf q = some tq → q ≠ tq →
        pexists fsR tq = pexists fs0 tq) →
      (cands.foldl (flatStep true) ⟨fs0, a, s, lg⟩).acted =
        (cands.foldl (flatStep false) ⟨fsR, a, s, lg⟩).acted ∧
      (cands.foldl (flatStep true) ⟨fs0, a, s, lg⟩).skipped =
        (cands.foldl (flatStep false) ⟨fsR, a, s, lg⟩).skipped ∧
      (cands.foldl (flatStep true) ⟨fs0, a, s, lg⟩).log =
        (cands.foldl (flatStep false) ⟨fsR, a, s, lg⟩).log := by
  induction cands with
  | nil => intro fsR a s lg _ _ _; exact ⟨rfl, rfl, rfl⟩
  | cons p rest ih =>
    intro fsR a s lg hshape hshare hagree
    rcases noSharedTargets_cons hshare with ⟨hsp, hsrest⟩
    have hshaperest : ∀ q ∈ rest, q.length = 1 ∧
        (nameEndsWith (basename q) ".json.gz" = true ∨
          nameEndsWith (basename q) ".json" = true) :=
      fun q hq => hshape q (List.mem_cons_of_mem _ hq)
    rw [List.foldl_cons, List.foldl_cons]
    cases hts : migrate_getTimestampFromPath p with
    | none =>
      rw [flatStep_parse_none true _ p hts, flatStep_parse_none false _ p hts]
      exact ih fsR a (s + 1) lg hshaperest hsrest
        (fun q hq => hagree q (List.mem_cons_of_mem _ hq))
    | some ts =>
      rw [flatStep_parse_some true _ p ts hts, flatStep_parse_some false _ p ts hts]
      have htp : targetOf p = some (migrate_getCachePathForTimestamp ts (extFor p)) :=
        targetOf_of_parse hts
      have hpc : p ≠ migrate_getCachePathForTimestamp ts (extFor p) := by
        intro h
        have := congrArg List.length h
        rw [(hshape p (List.mem_cons_self _ _)).1, migratePath_length] at this
        exact absurd this (by decide)
      have hag := hagree p (List.mem_cons_self _ _) _ htp hpc
      rw [hag]
      by_cases hex : pexists fs0 (migrate_getCachePathForTimestamp ts (extFor p)) = true
      · rw [if_pos hex, if_pos hex]
        exact ih fsR a (s + 1) lg hshaperest hsrest
          (fun q hq => hagree q (List.mem_cons_of_mem _ hq))
      · rw [if_neg hex, if_neg hex]
        apply ih (doMove fsR p (migrate_getCachePathForTimestamp ts (extFor p)))
          (a + 1) s (lg ++ [(p, migrate_getCachePathForTimestamp ts (extFor p))])
          hshaperest hsrest
        intro q hq tq htq hqne
        rcases targetOf_some_elim htq with ⟨tsq, hparseq, htqeq⟩
        have h3q : tq.length = 3 := by rw [htqeq]; rfl
        have hppre : ¬ p <+: tq := by
          rcases hshape p (List.mem_cons_self _ _) with ⟨hp1, hpends⟩
          rcases hpn : p with _ | ⟨n, prest⟩
          · rw [hpn] at hp1; exact absurd hp1 (by decide)
          · have hprest : prest = [] := by
              rw [hpn] at hp1
              simpa using hp1
            subst hprest
            rw [htqeq]
            apply flat_not_prefix_of_bucketed n tsq (extFor q)
            rw [hpn] at hpends
            exact hpends
        have htpq : migrate_getCachePathForTimestamp ts (extFor p) ≠ tq :=
          noShareB_spec (hsp q hq) htp htq hpc hqne
        rw [pexists_doMove_of_ne fsR p _ tq
          (migratePath_length ts (extFor p)) h3q hppre htpq]
        exact hagree q (List.mem_cons_of_mem _ hq) tq htq hqne

/-! ### Claim C2 -/

/-- Two misplaced hierarchical files sharing the same correct bucket. -/
def fsShared : FS :=
  ⟨[["202001", "01", "100.json.gz"], ["202002", "01", "100.json.gz"]],
   [["202001"], ["202001", "01"], ["202002"], ["202002", "01"]]⟩

/-- C2 (counterexample): on a tree with two misplaced files whose correct
destination coincides, the dry run decides to relocate both while the real
run relocates the first and then skips the second (its destination has
just become occupied), so dry-run and real-run decisions differ. -/
theorem C2_counterexample :
    (migrate_migrateCache fsShared true).fixLog ≠
      (migrate_migrateCache fsShared false).fixLog ∧
    (migrate_migrateCache fsShared true).fixed = 2 ∧
    (migrate_migrateCache fsShared false).fixed = 1 := by
  refine ⟨by decide, by decide, by decide⟩

/-- C2 (amended): on the same starting tree, a dry run and a real run of
each migrator phase make identical per-file decisions (same moved count,
same skipped count, same relocation log) provided no two out-of-place
candidates of that phase compute the same destination; a real-run move can
otherwise occupy the destination a later candidate checks. -/
theorem C2_dry_real_decisions (fs : FS) :
    (noSharedTargets (flatCandidates fs) = true →
      (migrate_migrateFlatFiles fs true).acted =
        (migrate_migrateFlatFiles fs false).acted ∧
      (migrate_migrateFlatFiles fs true).skipped =
        (migrate_migrateFlatFiles fs false).skipped ∧
      (migrate_migrateFlatFiles fs true).log =
        (migrate_migrateFlatFiles fs false).log) ∧
    (noSharedTargets (hierCandidates fs) = true →
      (migrate_fixMisplacedFiles fs true).acted =
        (migrate_fixMisplacedFiles fs false).acted ∧
      (migrate_fixMisplacedFiles fs true).skipped =
        (migrate_fixMisplacedFiles fs false).skipped ∧
      (migrate_fixMisplacedFiles fs true).log =
        (migrate_fixMisplacedFiles fs false).log) := by
  constructor
  · intro hns
    unfold migrate_migrateFlatFiles
    exact flatFold_dry_real fs (flatCandidates fs) fs 0 0 []
      (fun q hq => ⟨(mem_flatCandidates hq).1, (mem_flatCandidates hq).2.1⟩)
      hns (fun q _ tq _ _ => rfl)
  · intro hns
    unfold migrate_fixMisplacedFiles
    exact fixFold_dry_real fs (hierCandidates fs) fs 0 0 []
      (fun q hq => (mem_hierCandidates hq).1)
      hns (fun q _ tq _ _ => rfl)

theorem C2_dry_real_decisions_witness :
    noSharedTargets (hierCandidates fsPair) = true ∧
    (migrate_fixMisplacedFiles fsPair true).log =
      (migrate_fixMisplacedFiles fsPair false).log :=
  ⟨by decide, ((C2_dry_real_decisions fsPair).2 (by decide)).2.2⟩

/-! ### Idempotence infrastructure -/

/-- A name shaped like a cache file: *.json.gz or *.json. -/
def cacheNamed (p : Path) : Prop :=
  nameEndsWith (basename p) ".json.gz" = true ∨
  nameEndsWith (basename p) ".json" = true

instance (p : Path) : Decidable (cacheNamed p) := by
  unfold cacheNamed
  infer_instance

/-- No directory is named like a cache file (migrate phase 2 globs match
directories too; such directories would be scanned, used as skip targets
and pruned, breaking idempotence). -/
def NoCacheNamedDirs (fs : FS) : Prop := ∀ d ∈ fs.dirs, ¬ cacheNamed d

instance (fs : FS) : Decidable (NoCacheNamedDirs fs) := by
  unfold NoCacheNamedDirs
  infer_instance

/-- A path already at its own computed migration destination. -/
def SelfCorrect (p : Path) : Prop := targetOf p = some p

theorem pexists_iff (fs : FS) (p : Path) :
    pexists fs p = true ↔ p ∈ fs.files ∨ p ∈ fs.dirs := by
  unfold pexists
  simp only [Bool.or_eq_true, List.elem_iff]

theorem pexists_of_mem_files {fs : FS} {p : Path} (h : p ∈ fs.files) :
    pexists fs p = true := (pexists_iff fs p).mpr (Or.inl h)

theorem selfCorrect_elim {p : Path} (h : SelfCorrect p) :
    ∃ ts, migrate_getTimestampFromPath p = some ts ∧
      p = migrate_getCachePathForTimestamp ts (extFor p) := targetOf_some_elim h

theorem selfCorrect_canonical (ts : Int) (e : String)
    (he : e = ".json.gz" ∨ e = ".json") :
    SelfCorrect (migrate_getCachePathForTimestamp ts e) :=
  targetOf_self_of_canonical ts e he

theorem selfCorrect_length {p : Path} (h : SelfCorrect p) : p.length = 3 := by
  rcases selfCorrect_elim h with ⟨ts, _, hp⟩
  rw [hp]
  rfl

theorem cacheNamed_canonical (ts : Int) (e : String)
    (he : e = ".json.gz" ∨ e = ".json") :
    cacheNamed (migrate_getCachePathForTimestamp ts e) := by
  unfold cacheNamed
  rw [basename_migratePath]
  rcases he with rfl | rfl
  · exact Or.inl (nameEndsWith_append_self _ _)
  · exact Or.inr (nameEndsWith_append_self _ _)

theorem cacheNamed_selfCorrect {p : Path} (h : SelfCorrect p) : cacheNamed p := by
  rcases selfCorrect_elim h with ⟨ts, _, hp⟩
  rw [hp]
  exact cacheNamed_canonical ts (extFor p) (extFor_cases p)

theorem dot_mem_of_cacheNamed {p : Path} (h : cacheNamed p) :
    '.' ∈ (basename p).data := by
  rcases h with h | h
  · exact sublist_mem_of_endsWith h (by decide)
  · exact sublist_mem_of_endsWith h (by decide)

theorem basename_append_of_ne_nil (s t : Path) (ht : t ≠ []) :
    basename (s ++ t) = basename t := by
  unfold basename
  rw [List.getLastD_eq_getLast?, List.getLastD_eq_getLast?, List.getLast?_append]
  cases hlast : t.getLast?
  · rcases t with _ | ⟨x, xs⟩
    · exact absurd rfl ht
    · rw [List.getLast?_eq_getLast _ (by simp)] at hlast
      cases hlast
  · rfl

theorem basename_drop_of_lt (u : Path) (k : Nat) (hk : k < u.length) :
    basename (u.drop k) = basename u := by
  unfold basename
  rw [List.getLastD_eq_getLast?, List.getLastD_eq_getLast?, List.getLast?_drop,
    if_neg (by omega)]

theorem prefix_cases_one {src : Path} {x : String} (h : src <+: [x]) :
    src = [] ∨ src = [x] := by
  rcases h with ⟨t, ht⟩
  rcases src with _ | ⟨a, as⟩
  · exact Or.inl rfl
  · right
    rcases as with _ | ⟨b, bs⟩
    · simp at ht
      exact ht.1 ▸ rfl
    · exfalso
      have := congrArg List.length ht
      simp at this

theorem prefix_cases_two {src : Path} {x y : String} (h : src <+: [x, y]) :
    src = [] ∨ src = [x] ∨ src = [x, y] := by
  rcases h with ⟨t, ht⟩
  rcases src with _ | ⟨a, as⟩
  · exact Or.inl rfl
  · rcases as with _ | ⟨b, bs⟩
    · right; left
      have : a = x := by
        have := congrArg (fun l => l.headD "") ht
        simpa using this
      rw [this]
    · right; right
      rcases bs with _ | ⟨c, cs⟩
      · simp at ht
        rw [ht.1, ht.2.1]
      · exfalso
        have := congrArg List.length ht
        simp at this

theorem properPrefixes_migratePath (ts : Int) (ext : String) :
    properPrefixes (migrate_getCachePathForTimestamp ts ext) =
      [[yearString (utcYearMonthDay ts).1 ++ pad2 (utcYearMonthDay ts).2.1],
       [yearString (utcYearMonthDay ts).1 ++ pad2 (utcYearMonthDay ts).2.1,
        pad2 (utcYearMonthDay ts).2.2]] := rfl

theorem mem_files_doMove_frame {fs : FS} {src dst t : Path}
    (ht : t ∈ fs.files) (hsrc : ¬ src <+: t) : t ∈ (doMove fs src dst).files := by
  unfold doMove
  refine List.mem_map.mpr ⟨t, ht, ?_⟩
  unfold rebase
  rw [if_neg (fun hc => hsrc (List.isPrefixOf_iff_prefix.mp hc))]

theorem dst_mem_files_doMove {fs : FS} {src : Path} (dst : Path)
    (hsrc : src ∈ fs.files) : dst ∈ (doMove fs src dst).files := by
  unfold doMove
  refine List.mem_map.mpr ⟨src, hsrc, ?_⟩
  unfold rebase
  rw [if_pos (List.isPrefixOf_iff_prefix.mpr (List.prefix_refl src)),
    List.drop_length, List.append_nil]

theorem files_doMove_cases {fs : FS} {src dst q : Path}
    (hq : q ∈ (doMove fs src dst).files) (hql : q.length ≤ 3)
    (hdst3 : dst.length = 3) :
    (q ∈ fs.files ∧ ¬ src <+: q) ∨ (q = dst ∧ src ∈ fs.files) := by
  unfold doMove at hq
  rcases List.mem_map.mp hq with ⟨u, hu, hru⟩
  unfold rebase at hru
  by_cases hpre : src.isPrefixOf u = true
  · rw [if_pos hpre] at hru
    have hpre' : src <+: u := List.isPrefixOf_iff_prefix.mp hpre
    have hlen : u.length = src.length := by
      have h1 := hpre'.length_le
      have h2 : (dst ++ u.drop src.length).length = q.length := by rw [hru]
      rw [List.length_append, List.length_drop] at h2
      omega
    have husrc : src = u := hpre'.eq_of_length hlen.symm
    subst husrc
    rw [List.drop_length, List.append_nil] at hru
    exact Or.inr ⟨hru.symm, hu⟩
  · rw [if_neg hpre] at hru
    subst hru
    exact Or.inl ⟨hu, fun hc => hpre (List.isPrefixOf_iff_prefix.mpr hc)⟩

/-- A flat-length path never reappears among the files of a move to a
bucketed destination. -/
theorem flat_files_doMove_inv {fs : FS} {src dst q : Path}
    (hq : q ∈ (doMove fs src dst).files) (hq1 : q.length = 1)
    (hdst3 : dst.length = 3) : q ∈ fs.files := by
  rcases files_doMove_cases hq (by omega) hdst3 with ⟨h, _⟩ | ⟨hqd, _⟩
  · exact h
  · exfalso
    rw [hqd] at hq1
    omega

/-- Moving a cache-named source to a canonical destination keeps every
directory name free of cache extensions. -/
theorem noCacheNamedDirs_doMove {fs : FS} {src : Path} (ts : Int) (ext : String)
    (hnd : NoCacheNamedDirs fs) (hsrcname : cacheNamed src) :
    NoCacheNamedDirs (doMove fs src (migrate_getCachePathForTimestamp ts ext)) := by
  intro d hd
  unfold doMove at hd
  rcases List.mem_map.mp hd with ⟨u, hu, hru⟩
  have hsrcdot : '.' ∈ (basename src).data := dot_mem_of_cacheNamed hsrcname
  have hund : u ∈ fs.dirs ∨ u ∈ properPrefixes (migrate_getCachePathForTimestamp ts ext) :=
    (mem_addDirsIfMissing _ _ _).mp hu
  have hbu : ¬ cacheNamed u := by
    rcases hund with h | h
    · exact hnd u h
    · rw [properPrefixes_migratePath] at h
      intro hc
      have hdot := dot_mem_of_cacheNamed hc
      rcases List.mem_cons.mp h with rfl | h
      · exact not_dot_mem_bucketDir _ _ (by simpa [basename] using hdot)
      · rcases List.mem_singleton.mp h with rfl
        exact not_dot_mem_pad2 _ (by simpa [basename] using hdot)
  have hune : u ≠ src := by
    intro he
    exact hbu (he ▸ hsrcname)
  unfold rebase at hru
  by_cases hpre : src.isPrefixOf u = true
  · rw [if_pos hpre] at hru
    have hpre' : src <+: u := List.isPrefixOf_iff_prefix.mp hpre
    have hlt : src.length < u.length := by
      have hle := hpre'.length_le
      rcases Nat.lt_or_ge src.length u.length with h | h
      · exact h
      · exact absurd (hpre'.eq_of_length (by omega)) (fun he => hune he.symm)
    have hne : u.drop src.length ≠ [] := by
      rw [ne_eq, List.drop_eq_nil_iff]
      omega
    have hb : basename d = basename u := by
      rw [← hru, basename_append_of_ne_nil _ _ hne, basename_drop_of_lt _ _ hlt]
    intro hc
    apply hbu
    unfold cacheNamed at hc ⊢
    rw [← hb]
    exact hc
  · rw [if_neg hpre] at hru
    exact hru ▸ hbu

/-! ### Real-run postconditions of the two relocation phases -/

theorem flatFoldReal_post (cands : List Path) : ∀ (st : PhaseState),
    (∀ q ∈ cands, q.length = 1 ∧ cacheNamed q) →
    NoCacheNamedDirs st.fs →
    (∀ q ∈ cands, ∀ tsq, migrate_getTimestampFromPath q = some tsq →
      q ∈ st.fs.files ∨
        pexists st.fs (migrate_getCachePathForTimestamp tsq (extFor q)) = true) →
    NoCacheNamedDirs (cands.foldl (flatStep false) st).fs ∧
    (∀ t, SelfCorrect t → t ∈ st.fs.files →
      t ∈ (cands.foldl (flatStep false) st).fs.files) ∧
    (∀ p ∈ cands, ∀ ts, migrate_getTimestampFromPath p = some ts →
      pexists (cands.foldl (flatStep false) st).fs
        (migrate_getCachePathForTimestamp ts (extFor p)) = true) ∧
    (∀ q ∈ (cands.foldl (flatStep false) st).fs.files, q.length = 1 →
      q ∈ st.fs.files) ∧
    (∀ q ∈ (cands.foldl (flatStep false) st).fs.files, q.length = 3 →
      q ∈ st.fs.files ∨ SelfCorrect q) := by
  induction cands with
  | nil =>
    intro st _ hnd _
    exact ⟨hnd, fun t _ ht => ht, fun p hp => absurd hp (List.not_mem_nil p),
      fun q hq _ => hq, fun q hq _ => Or.inl hq⟩
  | cons p rest ih =>
    intro st hshape hnd hpres
    obtain ⟨hp1, hpname⟩ := hshape p (List.mem_cons_self _ _)
    have hshaper : ∀ q ∈ rest, q.length = 1 ∧ cacheNamed q :=
      fun q hq => hshape q (List.mem_cons_of_mem _ hq)
    rw [List.foldl_cons]
    cases hts : migrate_getTimestampFromPath p with
    | none =>
      rw [flatStep_parse_none false st p hts]
      have hres := ih { st with skipped := st.skipped + 1 } hshaper hnd
        (fun q hq tsq hq2 => hpres q (List.mem_cons_of_mem _ hq) tsq hq2)
      refine ⟨hres.1, hres.2.1, ?_, hres.2.2.2.1, hres.2.2.2.2⟩
      intro p' hp' ts hts'
      rcases List.mem_cons.mp hp' with rfl | hp'
      · rw [hts] at hts'; cases hts'
      · exact hres.2.2.1 p' hp' ts hts'
    | some ts =>
      rw [flatStep_parse_some false st p ts hts]
      have htscan : cacheNamed (migrate_getCachePathForTimestamp ts (extFor p)) :=
        cacheNamed_canonical ts (extFor p) (extFor_cases p)
      have htssc : SelfCorrect (migrate_getCachePathForTimestamp ts (extFor p)) :=
        selfCorrect_canonical ts (extFor p) (extFor_cases p)
      by_cases hex : pexists st.fs (migrate_getCachePathForTimestamp ts (extFor p)) = true
      · rw [if_pos hex]
        have hres := ih { st with skipped := st.skipped + 1 } hshaper hnd
          (fun q hq tsq hq2 => hpres q (List.mem_cons_of_mem _ hq) tsq hq2)
        refine ⟨hres.1, hres.2.1, ?_, hres.2.2.2.1, hres.2.2.2.2⟩
        intro p' hp' ts' hts'
        rcases List.mem_cons.mp hp' with rfl | hp'
        · rw [hts] at hts'
          injection hts' with hts'
          subst hts'
          have htmem : migrate_getCachePathForTimestamp ts (extFor p') ∈ st.fs.files := by
            rcases (pexists_iff _ _).mp hex with h | h
            · exact h
            · exact absurd htscan (hnd _ h)
          exact pexists_of_mem_files (hres.2.1 _ htssc htmem)
        · exact hres.2.2.1 p' hp' ts' hts'
      · rw [if_neg hex]
        have hpfile : p ∈ st.fs.files := by
          rcases hpres p (List.mem_cons_self _ _) ts hts with h | h
          · exact h
          · exact absurd h hex
        have hnd' : NoCacheNamedDirs (doMove st.fs p
            (migrate_getCachePathForTimestamp ts (extFor p))) :=
          noCacheNamedDirs_doMove ts (extFor p) hnd hpname
        have hnp : ∀ (tsc : Int) (ec : String), ec = ".json.gz" ∨ ec = ".json" →
            ¬ p <+: migrate_getCachePathForTimestamp tsc ec := by
          intro tsc ec hec hpre
          rcases hpn : p with _ | ⟨n, prest⟩
          · rw [hpn] at hp1; exact absurd hp1 (by decide)
          · have hprest : prest = [] := by rw [hpn] at hp1; simpa using hp1
            subst hprest
            rw [hpn] at hpre hpname
            exact flat_not_prefix_of_bucketed n tsc ec hpname hpre
        have hres := ih { st with
            fs := doMove st.fs p (migrate_getCachePathForTimestamp ts (extFor p)),
            acted := st.acted + 1,
            log := st.log ++ [(p, migrate_getCachePathForTimestamp ts (extFor p))] }
          hshaper hnd' ?hpres'
        case hpres' =>
          intro q hq tsq hq2
          rcases hpres q (List.mem_cons_of_mem _ hq) tsq hq2 with h | h
          · by_cases hpq : p = q
            · right
              subst hpq
              rw [hq2] at hts
              injection hts with hts
              subst hts
              exact pexists_of_mem_files (dst_mem_files_doMove _ hpfile)
            · left
              apply mem_files_doMove_frame h
              intro hpre
              have h1q := (hshaper q hq).1
              exact hpq (hpre.eq_of_length (by rw [hp1, h1q]))
          · right
            have htqmem : migrate_getCachePathForTimestamp tsq (extFor q) ∈ st.fs.files := by
              rcases (pexists_iff _ _).mp h with h' | h'
              · exact h'
              · exact absurd (cacheNamed_canonical tsq (extFor q) (extFor_cases q))
                  (hnd _ h')
            exact pexists_of_mem_files
              (mem_files_doMove_frame htqmem
                (hnp tsq (extFor q) (extFor_cases q)))
        refine ⟨hres.1, ?_, ?_, ?_, ?_⟩
        · intro t hsc ht
          apply hres.2.1 t hsc
          rcases selfCorrect_elim hsc with ⟨tst, _, hteq⟩
          apply mem_files_doMove_frame ht
          rw [hteq]
          exact hnp tst (extFor t) (extFor_cases t)
        · intro p' hp' ts' hts'
          rcases List.mem_cons.mp hp' with rfl | hp'
          · rw [hts] at hts'
            injection hts' with hts'
            subst hts'
            exact pexists_of_mem_files
              (hres.2.1 _ htssc (dst_mem_files_doMove _ hpfile))
          · exact hres.2.2.1 p' hp' ts' hts'
        · intro q hq hq1
          exact flat_files_doMove_inv (hres.2.2.2.1 q hq hq1) hq1 rfl
        · intro q hq hq3
          rcases hres.2.2.2.2 q hq hq3 with h | h
          · rcases files_doMove_cases h (by omega) rfl with ⟨h', _⟩ | ⟨rfl, _⟩
            · exact Or.inl h'
            · exact Or.inr htssc
          · exact Or.inr h

theorem fixFoldReal_post (cands : List Path) : ∀ (st : PhaseState),
    (∀ q ∈ cands, q.length = 3 ∧ cacheNamed q) →
    NoCacheNamedDirs st.fs →
    (∀ q ∈ cands, ∀ tsq, migrate_getTimestampFromPath q = some tsq →
      q ∈ st.fs.files ∨
        pexists st.fs (migrate_getCachePathForTimestamp tsq (extFor q)) = true) →
    NoCacheNamedDirs (cands.foldl (fixStep false) st).fs ∧
    (∀ t, SelfCorrect t → t ∈ st.fs.files →
      t ∈ (cands.foldl (fixStep false) st).fs.files) ∧
    (∀ p ∈ cands, ∀ ts, migrate_getTimestampFromPath p = some ts →
      p = migrate_getCachePathForTimestamp ts (extFor p) ∨
      pexists (cands.foldl (fixStep false) st).fs
        (migrate_getCachePathForTimestamp ts (extFor p)) = true) ∧
    (∀ q ∈ (cands.foldl (fixStep false) st).fs.files, q.length = 1 →
      q ∈ st.fs.files) ∧
    (∀ q ∈ (cands.foldl (fixStep false) st).fs.files, q.length = 3 →
      q ∈ st.fs.files ∨ SelfCorrect q) := by
  induction cands with
  | nil =>
    intro st _ hnd _
    exact ⟨hnd, fun t _ ht => ht, fun p hp => absurd hp (List.not_mem_nil p),
      fun q hq _ => hq, fun q hq _ => Or.inl hq⟩
  | cons p rest ih =>
    intro st hshape hnd hpres
    obtain ⟨hp3, hpname⟩ := hshape p (List.mem_cons_self _ _)
    have hshaper : ∀ q ∈ rest, q.length = 3 ∧ cacheNamed q :=
      fun q hq => hshape q (List.mem_cons_of_mem _ hq)
    rw [List.foldl_cons]
    cases hts : migrate_getTimestampFromPath p with
    | none =>
      rw [fixStep_parse_none false st p hts]
      have hres := ih { st with skipped := st.skipped + 1 } hshaper hnd
        (fun q hq tsq hq2 => hpres q (List.mem_cons_of_mem _ hq) tsq hq2)
      refine ⟨hres.1, hres.2.1, ?_, hres.2.2.2.1, hres.2.2.2.2⟩
      intro p' hp' ts hts'
      rcases List.mem_cons.mp hp' with rfl | hp'
      · rw [hts] at hts'; cases hts'
      · exact hres.2.2.1 p' hp' ts hts'
    | some ts =>
      rw [fixStep_parse_some false st p ts hts]
      have htscan : cacheNamed (migrate_getCachePathForTimestamp ts (extFor p)) :=
        cacheNamed_canonical ts (extFor p) (extFor_cases p)
      have htssc : SelfCorrect (migrate_getCachePathForTimestamp ts (extFor p)) :=
        selfCorrect_canonical ts (extFor p) (extFor_cases p)
      by_cases hpc : p = migrate_getCachePathForTimestamp ts (extFor p)
      · rw [if_pos hpc]
        have hres := ih st hshaper hnd
          (fun q hq tsq hq2 => hpres q (List.mem_cons_of_mem _ hq) tsq hq2)
        refine ⟨hres.1, hres.2.1, ?_, hres.2.2.2.1, hres.2.2.2.2⟩
        intro p' hp' ts' hts'
        rcases List.mem_cons.mp hp' with rfl | hp'
        · rw [hts] at hts'
          injection hts' with hts'
          subst hts'
          exact Or.inl hpc
        · exact hres.2.2.1 p' hp' ts' hts'
      · rw [if_neg hpc]
        by_cases hex : pexists st.fs (migrate_getCachePathForTimestamp ts (extFor p)) = true
        · rw [if_pos hex]
          have hres := ih { st with skipped := st.skipped + 1 } hshaper hnd
            (fun q hq tsq hq2 => hpres q (List.mem_cons_of_mem _ hq) tsq hq2)
          refine ⟨hres.1, hres.2.1, ?_, hres.2.2.2.1, hres.2.2.2.2⟩
          intro p' hp' ts' hts'
          rcases List.mem_cons.mp hp' with rfl | hp'
          · rw [hts] at hts'
            injection hts' with hts'
            subst hts'
            right
            have htmem : migrate_getCachePathForTimestamp ts (extFor p') ∈ st.fs.files := by
              rcases (pexists_iff _ _).mp hex with h | h
              · exact h
              · exact absurd htscan (hnd _ h)
            exact pexists_of_mem_files (hres.2.1 _ htssc htmem)
          · exact hres.2.2.1 p' hp' ts' hts'
        · rw [if_neg hex]
          have hpfile : p ∈ st.fs.files := by
            rcases hpres p (List.mem_cons_self _ _) ts hts with h | h
            · exact h
            · exact absurd h hex
          have hpnotsc : ¬ SelfCorrect p := by
            intro hsc
            rcases selfCorrect_elim hsc with ⟨ts0, hts0, hp0⟩
            rw [hts] at hts0
            injection hts0 with hts0
            subst hts0
            exact hpc hp0
          have hnp3 : ∀ (t : Path), SelfCorrect t → ¬ p <+: t := by
            intro t hsc hpre
            have ht3 : t.length = 3 := selfCorrect_length hsc
            have hpt : p = t := hpre.eq_of_length (by rw [hp3, ht3])
            exact hpnotsc (hpt ▸ hsc)
          have hnd' : NoCacheNamedDirs (doMove st.fs p
              (migrate_getCachePathForTimestamp ts (extFor p))) :=
            noCacheNamedDirs_doMove ts (extFor p) hnd hpname
          have hres := ih { st with
              fs := doMove st.fs p (migrate_getCachePathForTimestamp ts (extFor p)),
              acted := st.acted + 1,
              log := st.log ++ [(p, migrate_getCachePathForTimestamp ts (extFor p))] }
            hshaper hnd' ?hpres'
          case hpres' =>
            intro q hq tsq hq2
            rcases hpres q (List.mem_cons_of_mem _ hq) tsq hq2 with h | h
            · by_cases hpq : p = q
              · right
                subst hpq
                rw [hq2] at hts
                injection hts with hts
                subst hts
                exact pexists_of_mem_files (dst_mem_files_doMove _ hpfile)
              · left
                apply mem_files_doMove_frame h
                intro hpre
                have h3q := (hshaper q hq).1
                exact hpq (hpre.eq_of_length (by rw [hp3, h3q]))
            · right
              have htqmem : migrate_getCachePathForTimestamp tsq (extFor q) ∈ st.fs.files := by
                rcases (pexists_iff _ _).mp h with h' | h'
                · exact h'
                · exact absurd (cacheNamed_canonical tsq (extFor q) (extFor_cases q))
                    (hnd _ h')
              exact pexists_of_mem_files
                (mem_files_doMove_frame htqmem
                  (hnp3 _ (selfCorrect_canonical tsq (extFor q) (extFor_cases q))))
          refine ⟨hres.1, ?_, ?_, ?_, ?_⟩
          · intro t hsc ht
            exact hres.2.1 t hsc
              (mem_files_doMove_frame ht (hnp3 t hsc))
          · intro p' hp' ts' hts'
            rcases List.mem_cons.mp hp' with rfl | hp'
            · rw [hts] at hts'
              injection hts' with hts'
              subst hts'
              right
              exact pexists_of_mem_files
                (hres.2.1 _ htssc (dst_mem_files_doMove _ hpfile))
            · exact hres.2.2.1 p' hp' ts' hts'
          · intro q hq hq1
            exact flat_files_doMove_inv (hres.2.2.2.1 q hq hq1) hq1 rfl
          · intro q hq hq3
            rcases hres.2.2.2.2 q hq hq3 with h | h
            · rcases files_doMove_cases h (by omega) rfl with ⟨h', _⟩ | ⟨rfl, _⟩
              · exact Or.inl h'
              · exact Or.inr htssc
            · exact Or.inr h

/-! ### The cleanup phase: frame conditions and emptiness -/

theorem cleanStep_eq_pos (st : CleanState) (d : Path)
    (hc : (st.fs.dirs.contains d && isEmptyDir st.fs d) = true) :
    cleanStep false st d =
      ⟨⟨st.fs.files, st.fs.dirs.filter (fun e => !(e == d))⟩, st.removed + 1⟩ := by
  unfold cleanStep
  rw [if_pos hc]
  rfl

theorem cleanStep_eq_neg (st : CleanState) (d : Path)
    (hc : ¬ (st.fs.dirs.contains d && isEmptyDir st.fs d) = true) :
    cleanStep false st d = st := by
  unfold cleanStep
  rw [if_neg hc]

theorem isEmptyDir_false_of_child {fs : FS} {d c : Path}
    (hc : c ∈ fs.files ∨ c ∈ fs.dirs) (hne : c ≠ []) (hdl : c.dropLast = d) :
    isEmptyDir fs d = false := by
  unfold isEmptyDir
  rcases c with _ | ⟨a, as⟩
  · exact absurd rfl hne
  · rcases hc with hc | hc
    · have hany : fs.files.any (fun p => !p.isEmpty && p.dropLast == d) = true :=
        List.any_eq_true.mpr ⟨a :: as, hc, by simp [hdl]⟩
      rw [hany]
      rfl
    · have hany : fs.dirs.any (fun q => !q.isEmpty && q.dropLast == d) = true :=
        List.any_eq_true.mpr ⟨a :: as, hc, by simp [hdl]⟩
      rw [hany, Bool.not_true, Bool.and_false]

theorem child_of_not_isEmptyDir {fs : FS} {d : Path}
    (h : isEmptyDir fs d = false) :
    ∃ c, (c ∈ fs.files ∨ c ∈ fs.dirs) ∧ c ≠ [] ∧ c.dropLast = d := by
  unfold isEmptyDir at h
  cases hA : fs.files.any (fun p => !p.isEmpty && p.dropLast == d) with
  | true =>
    rcases List.any_eq_true.mp hA with ⟨c, hc, hp⟩
    simp only [Bool.and_eq_true, Bool.not_eq_true', beq_iff_eq] at hp
    refine ⟨c, Or.inl hc, ?_, hp.2⟩
    intro he
    rw [he] at hp
    exact absurd hp.1 (by decide)
  | false =>
    cases hB : fs.dirs.any (fun q => !q.isEmpty && q.dropLast == d) with
    | true =>
      rcases List.any_eq_true.mp hB with ⟨c, hc, hp⟩
      simp only [Bool.and_eq_true, Bool.not_eq_true', beq_iff_eq] at hp
      refine ⟨c, Or.inr hc, ?_, hp.2⟩
      intro he
      rw [he] at hp
      exact absurd hp.1 (by decide)
    | false =>
      rw [hA, hB] at h
      exact absurd h (by decide)

theorem cleanFoldReal_frame (dl : List Path) : ∀ st : CleanState,
    (dl.foldl (cleanStep false) st).fs.files = st.fs.files ∧
    ∀ d ∈ (dl.foldl (cleanStep false) st).fs.dirs, d ∈ st.fs.dirs := by
  induction dl with
  | nil => exact fun st => ⟨rfl, fun d hd => hd⟩
  | cons d rest ih =>
    intro st
    rw [List.foldl_cons]
    by_cases hc : (st.fs.dirs.contains d && isEmptyDir st.fs d) = true
    · rw [cleanStep_eq_pos st d hc]
      have h := ih ⟨⟨st.fs.files, st.fs.dirs.filter (fun e => !(e == d))⟩, st.removed + 1⟩
      exact ⟨h.1, fun e he => List.mem_of_mem_filter (h.2 e he)⟩
    · rw [cleanStep_eq_neg st d hc]
      exact ih st

theorem cleanFoldReal_no_empty (dl : List Path) : ∀ st : CleanState,
    dl.Pairwise (fun p q => decide (q.length ≤ p.length) = true) →
    (∀ e ∈ st.fs.dirs, e ∈ dl ∨
      ∃ c, (c ∈ st.fs.files ∨ (c ∈ st.fs.dirs ∧ c ∉ dl)) ∧ c ≠ [] ∧ c.dropLast = e) →
    ∀ e ∈ (dl.foldl (cleanStep false) st).fs.dirs,
      isEmptyDir (dl.foldl (cleanStep false) st).fs e = false := by
  induction dl with
  | nil =>
    intro st _ H e he
    rcases H e he with h | ⟨c, hcmem, hne, hdl⟩
    · exact absurd h (List.not_mem_nil _)
    · rcases hcmem with hc | ⟨hc, _⟩
      · exact isEmptyDir_false_of_child (Or.inl hc) hne hdl
      · exact isEmptyDir_false_of_child (Or.inr hc) hne hdl
  | cons d rest ih =>
    intro st hpw H
    rcases List.pairwise_cons.mp hpw with ⟨hdge, hpw'⟩
    rw [List.foldl_cons]
    by_cases hc : (st.fs.dirs.contains d && isEmptyDir st.fs d) = true
    · rw [cleanStep_eq_pos st d hc]
      apply ih _ hpw'
      intro e he
      have hemem : e ∈ st.fs.dirs := List.mem_of_mem_filter he
      have hed : e ≠ d := by
        have := (List.mem_filter.mp he).2
        simpa using this
      rcases H e hemem with h | ⟨c, hcmem, hne, hdl⟩
      · rcases List.mem_cons.mp h with h | h
        · exact absurd h hed
        · exact Or.inl h
      · right
        refine ⟨c, ?_, hne, hdl⟩
        rcases hcmem with hcf | ⟨hcd, hcnot⟩
        · exact Or.inl hcf
        · have hcne : c ≠ d := fun he' => hcnot (he' ▸ List.mem_cons_self _ _)
          exact Or.inr ⟨List.mem_filter.mpr ⟨hcd, by simpa using hcne⟩,
            fun hmem => hcnot (List.mem_cons_of_mem _ hmem)⟩
    · rw [cleanStep_eq_neg st d hc]
      apply ih st hpw'
      intro e he
      rcases H e he with h | ⟨c, hcmem, hne, hdl⟩
      · rcases List.mem_cons.mp h with rfl | h
        · have hcont : st.fs.dirs.contains e = true := List.elem_iff.mpr he
          have hcf : (st.fs.dirs.contains e && isEmptyDir st.fs e) = false :=
            Bool.eq_false_iff.mpr hc
          rw [hcont, Bool.true_and] at hcf
          rcases child_of_not_isEmptyDir hcf with ⟨c, hcm, hcne, hcdl⟩
          have hclen : c.length = e.length + 1 := by
            have h1 : c.dropLast.length = c.length - 1 := List.length_dropLast c
            have h2 : 0 < c.length := List.length_pos.mpr hcne
            rw [hcdl] at h1
            omega
          have hcnr : c ∉ rest := by
            intro hmem
            have := hdge c hmem
            simp only [decide_eq_true_eq] at this
            omega
          right
          refine ⟨c, ?_, hcne, hcdl⟩
          rcases hcm with hcm | hcm
          · exact Or.inl hcm
          · exact Or.inr ⟨hcm, hcnr⟩
        · exact Or.inl h
      · right
        exact ⟨c, by
          rcases hcmem with hcf | ⟨hcd, hcnot⟩
          · exact Or.inl hcf
          · exact Or.inr ⟨hcd, fun hmem => hcnot (List.mem_cons_of_mem _ hmem)⟩,
          hne, hdl⟩

theorem cleanFold_noop (dl : List Path) : ∀ st : CleanState,
    (∀ e ∈ st.fs.dirs, isEmptyDir st.fs e = false) →
    dl.foldl (cleanStep false) st = st := by
  induction dl with
  | nil => intro st _; rfl
  | cons d rest ih =>
    intro st H
    have hcond : ¬ (st.fs.dirs.contains d && isEmptyDir st.fs d) = true := by
      intro hcond
      rw [Bool.and_eq_true] at hcond
      have hd : d ∈ st.fs.dirs := List.elem_iff.mp hcond.1
      rw [H d hd] at hcond
      exact absurd hcond.2 (by decide)
    rw [List.foldl_cons, cleanStep_eq_neg st d hcond]
    exact ih st H

/-! ### Second-run all-skip lemmas -/

theorem flatFold_all_skip (cands : List Path) : ∀ st : PhaseState,
    (∀ p ∈ cands, ∀ ts, migrate_getTimestampFromPath p = some ts →
      pexists st.fs (migrate_getCachePathForTimestamp ts (extFor p)) = true) →
    (cands.foldl (flatStep false) st).fs = st.fs ∧
    (cands.foldl (flatStep false) st).acted = st.acted := by
  induction cands with
  | nil => exact fun st _ => ⟨rfl, rfl⟩
  | cons p rest ih =>
    intro st H
    rw [List.foldl_cons]
    cases hts : migrate_getTimestampFromPath p with
    | none =>
      rw [flatStep_parse_none false st p hts]
      exact ih _ (fun q hq ts h => H q (List.mem_cons_of_mem _ hq) ts h)
    | some ts =>
      rw [flatStep_parse_some false st p ts hts,
        if_pos (H p (List.mem_cons_self _ _) ts hts)]
      exact ih _ (fun q hq ts' h => H q (List.mem_cons_of_mem _ hq) ts' h)

theorem fixFold_all_skip (cands : List Path) : ∀ st : PhaseState,
    (∀ p ∈ cands, ∀ ts, migrate_getTimestampFromPath p = some ts →
      p = migrate_getCachePathForTimestamp ts (extFor p) ∨
      pexists st.fs (migrate_getCachePathForTimestamp ts (extFor p)) = true) →
    (cands.foldl (fixStep false) st).fs = st.fs ∧
    (cands.foldl (fixStep false) st).acted = st.acted := by
  induction cands with
  | nil => exact fun st _ => ⟨rfl, rfl⟩
  | cons p rest ih =>
    intro st H
    rw [List.foldl_cons]
    cases hts : migrate_getTimestampFromPath p with
    | none =>
      rw [fixStep_parse_none false st p hts]
      exact ih _ (fun q hq ts h => H q (List.mem_cons_of_mem _ hq) ts h)
    | some ts =>
      rw [fixStep_parse_some false st p ts hts]
      by_cases hpc : p = migrate_getCachePathForTimestamp ts (extFor p)
      · rw [if_pos hpc]
        exact ih _ (fun q hq ts' h => H q (List.mem_cons_of_mem _ hq) ts' h)
      · rw [if_neg hpc]
        rcases H p (List.mem_cons_self _ _) ts hts with h | h
        · exact absurd h hpc
        · rw [if_pos h]
          exact ih _ (fun q hq ts' h' => H q (List.mem_cons_of_mem _ hq) ts' h')

theorem mem_flatCandidates_mpr {fs : FS} {q : Path}
    (hq : q ∈ fs.files) (h1 : q.length = 1)
    (hn : nameEndsWith (basename q) ".json.gz" = true ∨
      nameEndsWith (basename q) ".json" = true) :
    q ∈ flatCandidates fs := by
  unfold flatCandidates
  apply mem_sortBy.mpr
  apply List.mem_append.mpr
  rcases hn with hn | hn
  · exact Or.inl (List.mem_filter.mpr ⟨hq, by simp [h1, hn]⟩)
  · exact Or.inr (List.mem_filter.mpr ⟨hq, by simp [h1, hn]⟩)

theorem mem_hierCandidates_mpr {fs : FS} {q : Path}
    (hq : q ∈ fs.files) (h3 : q.length = 3)
    (hn : nameEndsWith (basename q) ".json.gz" = true ∨
      nameEndsWith (basename q) ".json" = true) :
    q ∈ hierCandidates fs := by
  unfold hierCandidates
  apply mem_sortBy.mpr
  apply List.mem_append.mpr
  rcases hn with hn | hn
  · exact Or.inl (List.mem_filter.mpr ⟨List.mem_append_left _ hq, by simp [h3, hn]⟩)
  · exact Or.inr (List.mem_filter.mpr ⟨List.mem_append_left _ hq, by simp [h3, hn]⟩)

/-- If every flat candidate already finds its destination occupied, every
hierarchical candidate is already correct or finds its destination occupied,
and no directory is empty, a real migration run acts on nothing and leaves
the tree unchanged. -/
theorem secondRun_no_ops_core (fs3 : FS)
    (hnoempty : ∀ e ∈ fs3.dirs, isEmptyDir fs3 e = false)
    (hflat : ∀ p ∈ flatCandidates fs3, ∀ ts, migrate_getTimestampFromPath p = some ts →
      pexists fs3 (migrate_getCachePathForTimestamp ts (extFor p)) = true)
    (hfix0 : ∀ p ∈ hierCandidates fs3, ∀ ts, migrate_getTimestampFromPath p = some ts →
      p = migrate_getCachePathForTimestamp ts (extFor p) ∨
      pexists fs3 (migrate_getCachePathForTimestamp ts (extFor p)) = true) :
    (migrate_migrateCache fs3 false).flatMoved = 0 ∧
    (migrate_migrateCache fs3 false).fixed = 0 ∧
    (migrate_migrateCache fs3 false).dirsRemoved = 0 ∧
    (migrate_migrateCache fs3 false).fs = fs3 := by
  have hA := flatFold_all_skip (flatCandidates fs3) ⟨fs3, 0, 0, []⟩ hflat
  have hA1 : (migrate_migrateFlatFiles fs3 false).fs = fs3 := hA.1
  have hmoved : (migrate_migrateCache fs3 false).flatMoved = 0 := hA.2
  have hfix' : ∀ p ∈ hierCandidates (migrate_migrateFlatFiles fs3 false).fs, ∀ ts,
      migrate_getTimestampFromPath p = some ts →
      p = migrate_getCachePathForTimestamp ts (extFor p) ∨
      pexists (migrate_migrateFlatFiles fs3 false).fs
        (migrate_getCachePathForTimestamp ts (extFor p)) = true := by
    rw [hA1]
    exact hfix0
  have hB := fixFold_all_skip (hierCandidates (migrate_migrateFlatFiles fs3 false).fs)
    ⟨(migrate_migrateFlatFiles fs3 false).fs, 0, 0, []⟩ hfix'
  have hB1' : (migrate_fixMisplacedFiles (migrate_migrateFlatFiles fs3 false).fs false).fs =
      (migrate_migrateFlatFiles fs3 false).fs := hB.1
  have hB1 := hB1'.trans hA1
  have hfixed : (migrate_migrateCache fs3 false).fixed = 0 := hB.2
  have hclean' : ∀ e ∈ (migrate_fixMisplacedFiles
        (migrate_migrateFlatFiles fs3 false).fs false).fs.dirs,
      isEmptyDir (migrate_fixMisplacedFiles
        (migrate_migrateFlatFiles fs3 false).fs false).fs e = false := by
    rw [hB1]
    exact hnoempty
  have hCn := cleanFold_noop (dirCandidates (migrate_fixMisplacedFiles
      (migrate_migrateFlatFiles fs3 false).fs false).fs)
    ⟨(migrate_fixMisplacedFiles (migrate_migrateFlatFiles fs3 false).fs false).fs, 0⟩
    hclean'
  have hrem : (migrate_migrateCache fs3 false).dirsRemoved = 0 :=
    congrArg CleanState.removed hCn
  have hfs : (migrate_migrateCache fs3 false).fs = fs3 :=
    (congrArg CleanState.fs hCn).trans hB1
  exact ⟨hmoved, hfixed, hrem, hfs⟩

/-- After one real run on a tree with no cache-named directories, every flat
candidate finds its destination occupied, every hierarchical candidate is
already in place or finds its destination occupied, and no directory is
empty; the tree also still has no cache-named directories. -/
theorem firstRun_establishes (fs0 : FS) (hnd : NoCacheNamedDirs fs0) :
    NoCacheNamedDirs (migrate_migrateCache fs0 false).fs ∧
    (∀ e ∈ (migrate_migrateCache fs0 false).fs.dirs,
      isEmptyDir (migrate_migrateCache fs0 false).fs e = false) ∧
    (∀ p ∈ flatCandidates (migrate_migrateCache fs0 false).fs, ∀ ts,
      migrate_getTimestampFromPath p = some ts →
      pexists (migrate_migrateCache fs0 false).fs
        (migrate_getCachePathForTimestamp ts (extFor p)) = true) ∧
    (∀ p ∈ hierCandidates (migrate_migrateCache fs0 false).fs, ∀ ts,
      migrate_getTimestampFromPath p = some ts →
      p = migrate_getCachePathForTimestamp ts (extFor p) ∨
      pexists (migrate_migrateCache fs0 false).fs
        (migrate_getCachePathForTimestamp ts (extFor p)) = true) := by
  have hshape1 : ∀ q ∈ flatCandidates fs0, q.length = 1 ∧ cacheNamed q := by
    intro q hq
    exact ⟨(mem_flatCandidates hq).1, (mem_flatCandidates hq).2.1⟩
  have hP1 := flatFoldReal_post (flatCandidates fs0) ⟨fs0, 0, 0, []⟩ hshape1 hnd
    (fun q hq _ _ => Or.inl (mem_flatCandidates hq).2.2)
  have hnd1 : NoCacheNamedDirs (migrate_migrateFlatFiles fs0 false).fs := hP1.1
  have hsc1 : ∀ t, SelfCorrect t → t ∈ fs0.files →
      t ∈ (migrate_migrateFlatFiles fs0 false).fs.files := hP1.2.1
  have htgt1 : ∀ p ∈ flatCandidates fs0, ∀ ts,
      migrate_getTimestampFromPath p = some ts →
      pexists (migrate_migrateFlatFiles fs0 false).fs
        (migrate_getCachePathForTimestamp ts (extFor p)) = true := hP1.2.2.1
  have hlen1_1 : ∀ q ∈ (migrate_migrateFlatFiles fs0 false).fs.files,
      q.length = 1 → q ∈ fs0.files := hP1.2.2.2.1
  have hshape2 : ∀ q ∈ hierCandidates (migrate_migrateFlatFiles fs0 false).fs,
      q.length = 3 ∧ cacheNamed q := by
    intro q hq
    exact ⟨(mem_hierCandidates hq).1, (mem_hierCandidates hq).2.1⟩
  have hfiles2 : ∀ q ∈ hierCandidates (migrate_migrateFlatFiles fs0 false).fs,
      q ∈ (migrate_migrateFlatFiles fs0 false).fs.files := by
    intro q hq
    rcases mem_hierCandidates hq with ⟨_, hn, hm⟩
    rcases List.mem_append.mp hm with h | h
    · exact h
    · exact absurd hn (hnd1 q h)
  have hP2 := fixFoldReal_post (hierCandidates (migrate_migrateFlatFiles fs0 false).fs)
    ⟨(migrate_migrateFlatFiles fs0 false).fs, 0, 0, []⟩ hshape2 hnd1
    (fun q hq _ _ => Or.inl (hfiles2 q hq))
  have hnd2 : NoCacheNamedDirs (migrate_fixMisplacedFiles
      (migrate_migrateFlatFiles fs0 false).fs false).fs := hP2.1
  have hsc2 : ∀ t, SelfCorrect t → t ∈ (migrate_migrateFlatFiles fs0 false).fs.files →
      t ∈ (migrate_fixMisplacedFiles
        (migrate_migrateFlatFiles fs0 false).fs false).fs.files := hP2.2.1
  have htgt2 : ∀ p ∈ hierCandidates (migrate_migrateFlatFiles fs0 false).fs, ∀ ts,
      migrate_getTimestampFromPath p = some ts →
      p = migrate_getCachePathForTimestamp ts (extFor p) ∨
      pexists (migrate_fixMisplacedFiles (migrate_migrateFlatFiles fs0 false).fs false).fs
        (migrate_getCachePathForTimestamp ts (extFor p)) = true := hP2.2.2.1
  have hlen2_1 : ∀ q ∈ (migrate_fixMisplacedFiles
        (migrate_migrateFlatFiles fs0 false).fs false).fs.files,
      q.length = 1 → q ∈ (migrate_migrateFlatFiles fs0 false).fs.files := hP2.2.2.2.1
  have hlen2_3 : ∀ q ∈ (migrate_fixMisplacedFiles
        (migrate_migrateFlatFiles fs0 false).fs false).fs.files,
      q.length = 3 → q ∈ (migrate_migrateFlatFiles fs0 false).fs.files ∨ SelfCorrect q :=
    hP2.2.2.2.2
  have hC := cleanFoldReal_frame (dirCandidates (migrate_fixMisplacedFiles
      (migrate_migrateFlatFiles fs0 false).fs false).fs)
    ⟨(migrate_fixMisplacedFiles (migrate_migrateFlatFiles fs0 false).fs false).fs, 0⟩
  have hfiles3 : (migrate_migrateCache fs0 false).fs.files =
      (migrate_fixMisplacedFiles
        (migrate_migrateFlatFiles fs0 false).fs false).fs.files := hC.1
  have hdirs3 : ∀ d ∈ (migrate_migrateCache fs0 false).fs.dirs,
      d ∈ (migrate_fixMisplacedFiles
        (migrate_migrateFlatFiles fs0 false).fs false).fs.dirs := hC.2
  have hpw : (dirCandidates (migrate_fixMisplacedFiles
      (migrate_migrateFlatFiles fs0 false).fs false).fs).Pairwise
      (fun p q => decide (q.length ≤ p.length) = true) :=
    sortBy_pairwise
      (by intro a b hab; simp only [decide_eq_true_eq, decide_eq_false_iff_not] at hab ⊢; omega)
      (by intro a b c hab hbc; simp only [decide_eq_true_eq] at hab hbc ⊢; omega)
      (migrate_fixMisplacedFiles (migrate_migrateFlatFiles fs0 false).fs false).fs.dirs
  have hnoempty : ∀ e ∈ (migrate_migrateCache fs0 false).fs.dirs,
      isEmptyDir (migrate_migrateCache fs0 false).fs e = false :=
    cleanFoldReal_no_empty _ _ hpw (fun e he => Or.inl (mem_sortBy.mpr he))
  have hnd3 : NoCacheNamedDirs (migrate_migrateCache fs0 false).fs :=
    fun d hd => hnd2 d (hdirs3 d hd)
  refine ⟨hnd3, hnoempty, ?_, ?_⟩
  · intro p hp ts hts
    rcases mem_flatCandidates hp with ⟨h1, hn, hmem⟩
    have hm2 : p ∈ (migrate_fixMisplacedFiles
        (migrate_migrateFlatFiles fs0 false).fs false).fs.files := hfiles3 ▸ hmem
    have hm1 : p ∈ (migrate_migrateFlatFiles fs0 false).fs.files := hlen2_1 p hm2 h1
    have hm0 : p ∈ fs0.files := hlen1_1 p hm1 h1
    have hex1 := htgt1 p (mem_flatCandidates_mpr hm0 h1 hn) ts hts
    have htf1 : migrate_getCachePathForTimestamp ts (extFor p) ∈
        (migrate_migrateFlatFiles fs0 false).fs.files := by
      rcases (pexists_iff _ _).mp hex1 with h | h
      · exact h
      · exact absurd (cacheNamed_canonical ts (extFor p) (extFor_cases p)) (hnd1 _ h)
    have htf2 := hsc2 _ (selfCorrect_canonical ts (extFor p) (extFor_cases p)) htf1
    exact pexists_of_mem_files (hfiles3 ▸ htf2)
  · intro p hp ts hts
    rcases mem_hierCandidates hp with ⟨h3, hn, hmem⟩
    have hmf : p ∈ (migrate_migrateCache fs0 false).fs.files := by
      rcases List.mem_append.mp hmem with h | h
      · exact h
      · exact absurd hn (hnd3 p h)
    have hm2 : p ∈ (migrate_fixMisplacedFiles
        (migrate_migrateFlatFiles fs0 false).fs false).fs.files := hfiles3 ▸ hmf
    rcases hlen2_3 p hm2 h3 with hm1 | hsc
    · rcases htgt2 p (mem_hierCandidates_mpr hm1 h3 hn) ts hts with he | hex
      · exact Or.inl he
      · right
        have htf2 : migrate_getCachePathForTimestamp ts (extFor p) ∈
            (migrate_fixMisplacedFiles
              (migrate_migrateFlatFiles fs0 false).fs false).fs.files := by
          rcases (pexists_iff _ _).mp hex with h | h
          · exact h
          · exact absurd (cacheNamed_canonical ts (extFor p) (extFor_cases p)) (hnd2 _ h)
        exact pexists_of_mem_files (hfiles3 ▸ htf2)
    · left
      rcases selfCorrect_elim hsc with ⟨ts0, hts0, hp0⟩
      rw [hts] at hts0
      injection hts0 with hts0
      rw [← hts0] at hp0
      exact hp0

/-- A directory named like a cache file defeats idempotence: the first run
skips the flat file (the directory occupies its destination) and then prunes
that empty directory, so the second run performs the move. -/
def fsDirTrap : FS :=
  ⟨[["100.json.gz"]],
   [["197001"], ["197001", "01"], ["197001", "01", "100.json.gz"]]⟩

/-- C3 counterexample: on fsDirTrap the first real migration run moves
nothing and removes three directories, yet the second run still moves a flat
file, so the second run is not a no-op. -/
theorem C3_counterexample :
    (migrate_migrateCache fsDirTrap false).flatMoved = 0 ∧
    (migrate_migrateCache fsDirTrap false).dirsRemoved = 3 ∧
    (migrate_migrateCache (migrate_migrateCache fsDirTrap false).fs false).flatMoved = 1 := by
  decide

/-- C3 (amended): on any tree with no directory named like a cache file,
running the full migration twice is idempotent: the second real run performs
zero flat-file moves, zero misplaced-file fixes and zero directory removals,
and leaves the tree unchanged. -/
theorem C3_second_run_no_ops (fs0 : FS) (hnd : NoCacheNamedDirs fs0) :
    (migrate_migrateCache (migrate_migrateCache fs0 false).fs false).flatMoved = 0 ∧
    (migrate_migrateCache (migrate_migrateCache fs0 false).fs false).fixed = 0 ∧
    (migrate_migrateCache (migrate_migrateCache fs0 false).fs false).dirsRemoved = 0 ∧
    (migrate_migrateCache (migrate_migrateCache fs0 false).fs false).fs =
      (migrate_migrateCache fs0 false).fs := by
  obtain ⟨_, hnoempty, hflat, hfix⟩ := firstRun_establishes fs0 hnd
  exact secondRun_no_ops_core (migrate_migrateCache fs0 false).fs hnoempty hflat hfix

/-- Witness: a single flat cache file; the second migration run does nothing. -/
theorem C3_second_run_no_ops_witness :
    (migrate_migrateCache (migrate_migrateCache ⟨[["100.json.gz"]], []⟩ false).fs
      false).flatMoved = 0 ∧
    (migrate_migrateCache (migrate_migrateCache ⟨[["100.json.gz"]], []⟩ false).fs
      false).fixed = 0 ∧
    (migrate_migrateCache (migrate_migrateCache ⟨[["100.json.gz"]], []⟩ false).fs
      false).dirsRemoved = 0 ∧
    (migrate_migrateCache (migrate_migrateCache ⟨[["100.json.gz"]], []⟩ false).fs
      false).fs = (migrate_migrateCache ⟨[["100.json.gz"]], []⟩ false).fs :=
  C3_second_run_no_ops ⟨[["100.json.gz"]], []⟩ (by decide)

end ClusterArt
